import Mathlib

/-!
Verification of the incremental synchronization and build-orchestration engine
of the VSCode-Workspace repository.

The development shallowly embeds the relevant parts of
`eslint/workspace-manager.js` (the `smartSync` tree differ, the
`syncLibrariesIfNeeded` library materializer and the `detectLibraryUsage`
scanner of imports) and of the `watchTask` scheduler of the bundled just-scripts
tooling.  Directories are finite labelled trees, file metadata is the
(size, mtime-in-milliseconds) pair that the JavaScript code inspects via
`fs.statSync`, and fallible filesystem operations run in `Except Unit`.
Recursive directory walks take an explicit fuel argument (structural
recursion on the fuel) so that every function evaluates by kernel reduction;
running out of fuel yields `Except.error`, which never happens when the fuel
exceeds the size of the tree, and all theorems are conditioned on an
`Except.ok` result.
-/

/-- A node of the modelled filesystem: a regular file carries its size in
bytes and its modification time in milliseconds since the epoch (the two
fields of `fs.statSync` that `smartSync` compares); a directory carries its
list of named children, in directory-listing order. -/
inductive FSNode where
  | file (size : Nat) (mtime : Nat)
  | dir (children : List (String × FSNode))

/-- An immediate child of a directory: its name and its node. -/
abbrev Entry := String × FSNode

/-- Look a name up in a directory listing, as `path.join` plus
`fs.existsSync`/`fs.statSync` observe it: the first entry with that name. -/
def findEntry : List Entry → String → Option FSNode
  | [], _ => none
  | (m, node) :: rest, n => if m = n then some node else findEntry rest n

/-- Overwrite the entry of the given name (first occurrence, in place), or
append a fresh entry when the name is absent: the effect of writing
`destination/name` inside an existing directory. -/
def setEntry : List Entry → String → FSNode → List Entry
  | [], n, node => [(n, node)]
  | (m, x) :: rest, n, node =>
    if m = n then (n, node) :: rest else (m, x) :: setEntry rest n node

/-- The file names `smartSync` skips in its copy pass:
`item.endsWith('.map') || item.endsWith('.temp.json') || item.startsWith('.')`. -/
def ignorableFile (name : String) : Bool :=
  List.isSuffixOf ".map".toList name.toList ||
  List.isSuffixOf ".temp.json".toList name.toList ||
  (match name.toList with | c :: _ => c = '.' | [] => false)

/-- The `shouldCopy` decision of `smartSync` for a source file of the given
size and mtime against the destination entry of the same name: copy when the
destination is absent; otherwise copy when the sizes differ, and when the
sizes agree copy exactly when the source mtime, truncated to whole seconds
(`Math.floor(mtime.getTime() / 1000)`), is strictly greater than the
destination's.  When the destination entry is a directory the comparison
runs on the directory's stats and an attempted copy always fails with EISDIR
and is caught (see `tryCopy`), leaving the destination unchanged either way;
the branch is modelled as `true` since only the in-code `skippedFiles`
counter, which the model does not expose, distinguishes the two outcomes. -/
def shouldCopy (ssize smtime : Nat) : Option FSNode → Bool
  | none => true
  | some (.file dsize dmtime) =>
    if ssize ≠ dsize then true else decide (smtime / 1000 > dmtime / 1000)
  | some (.dir _) => true

/-- One attempted `fs.copyFileSync(sourcePath, destPath)`.  Copying onto an
existing directory fails with EISDIR; the failure is caught and logged and
the destination is unchanged.  A successful copy writes the source bytes, so
the destination file gets the source's size, and — because `copyFileSync`
does not carry timestamps over — a fresh mtime equal to the current clock
`now`.  The second component counts the copy for `syncedFiles`. -/
def tryCopy (dst : List Entry) (n : String) (ssize now : Nat) : List Entry × Nat :=
  match findEntry dst n with
  | some (.dir _) => (dst, 0)
  | _ => (setEntry dst n (.file ssize now), 1)

/-- The deletion pass of `smartSync` over the destination listing: every
entry whose name is neither in the source listing nor in the preserve list
is removed (`removeDirectory` for directories, `unlinkSync` for files).  The
second component counts the removals. -/
def deletePass (srcNames pres : List String) : List Entry → List Entry × Nat
  | [] => ([], 0)
  | (n, node) :: rest =>
    let r := deletePass srcNames pres rest
    if srcNames.contains n || pres.contains n then ((n, node) :: r.1, r.2)
    else (r.1, r.2 + 1)

/-- The copy pass of `smartSync` over the source listing, acting on the
destination listing left by the deletion pass.  For a subdirectory not in
`excl` it performs the full recursive `smartSync(sourcePath, destPath,
excludeDirs)` call — destination child created when absent, an existing
plain file at the destination making `readdirSync` throw (`Except.error`),
then the nested deletion pass with the empty preserve list followed by the
nested copy pass.  For a file it skips ignorable names and otherwise copies
according to `shouldCopy`.  Counts of copies and deletions are aggregated
across the recursion.  The fuel only bounds the recursion depth. -/
def copyPassF : Nat → List Entry → List Entry → List String → Nat →
    Except Unit (List Entry × Nat × Nat)
  | 0, _, _, _, _ => .error ()
  | fuel + 1, src, dst, excl, now =>
    match src with
    | [] => .ok (dst, 0, 0)
    | (n, .file s m) :: rest =>
      if ignorableFile n then copyPassF fuel rest dst excl now
      else if shouldCopy s m (findEntry dst n) then
        let t := tryCopy dst n s now
        do
          let (dst2, c2, d2) ← copyPassF fuel rest t.1 excl now
          .ok (dst2, t.2 + c2, d2)
      else copyPassF fuel rest dst excl now
    | (n, .dir cs) :: rest =>
      if excl.contains n then copyPassF fuel rest dst excl now
      else
        match findEntry dst n with
        | some (.file _ _) => .error ()
        | dentry =>
          let dcs := match dentry with | some (.dir ds) => ds | _ => []
          let del := deletePass (cs.map Prod.fst) [] dcs
          do
            let (dcs2, c, d) ← copyPassF fuel cs del.1 excl now
            let (dst2, c2, d2) ← copyPassF fuel rest (setEntry dst n (.dir dcs2)) excl now
            .ok (dst2, c + c2, del.2 + d + d2)

/-- One level of `smartSync` on directory listings: the deletion pass with
the given preserve list, then the copy pass; deletions are totalled. -/
def syncDir (fuel : Nat) (src dst : List Entry) (excl pres : List String) (now : Nat) :
    Except Unit (List Entry × Nat × Nat) :=
  let del := deletePass (src.map Prod.fst) pres dst
  do
    let (dst2, c, d) ← copyPassF fuel src del.1 excl now
    .ok (dst2, c, del.2 + d)

/-- The `smartSync(source, destination, excludeDirs, preserveDirs)` entry
point.  An absent destination is created (`mkdirSync`); a destination that
exists as a plain file makes `readdirSync(destination)` throw.  An absent
source yields the empty listing (`fs.existsSync(source) ? readdirSync :
[]`); a source that exists as a plain file makes `readdirSync(source)`
throw.  The result is the final destination tree together with the total
number of files copied and of destination entries removed. -/
def smartSync (fuel : Nat) (src dst : Option FSNode) (excl pres : List String) (now : Nat) :
    Except Unit (FSNode × Nat × Nat) := do
  let ds ← match dst with
    | none => Except.ok ([] : List Entry)
    | some (.dir ds) => Except.ok ds
    | some (.file _ _) => Except.error ()
  let cs ← match src with
    | none => Except.ok ([] : List Entry)
    | some (.dir cs) => Except.ok cs
    | some (.file _ _) => Except.error ()
  let r ← syncDir fuel cs ds excl pres now
  Except.ok (FSNode.dir r.1, r.2.1, r.2.2)

/-- Resolve a path (a list of name components) inside a tree. -/
def getNode : FSNode → List String → Option FSNode
  | node, [] => some node
  | .file _ _, _ :: _ => none
  | .dir cs, n :: rest =>
    match findEntry cs n with
    | none => none
    | some child => getNode child rest

/-- Resolve a path inside a tree, refusing to descend into any directory
whose name is in `excl` — exactly the reachability that the copy pass of
`smartSync` has into the source tree (a plain file whose name is in `excl`
is still reachable: the exclusion test only guards recursion into
directories). -/
def getNodeExcl (excl : List String) : FSNode → List String → Option FSNode
  | node, [] => some node
  | .file _ _, _ :: _ => none
  | .dir cs, n :: rest =>
    match findEntry cs n with
    | none => none
    | some (.file s m) => getNodeExcl excl (.file s m) rest
    | some (.dir ds) => if excl.contains n then none else getNodeExcl excl (.dir ds) rest

/-- Observe the size of a file node behind an optional lookup result:
`some size` exactly when the lookup found a regular file. -/
def fileSizeOf : Option FSNode → Option Nat
  | some (.file s _) => some s
  | _ => none

/-- Duplicate-freeness of the names in a directory listing and, recursively,
in every sublisting.  Real `readdirSync` listings always satisfy this.  The
fuel mirrors the fuel discipline of `copyPassF` exactly, so the predicate at
a given fuel covers precisely the part of the tree that `copyPassF` can
visit with that fuel. -/
def nodupEntriesF : Nat → List Entry → Bool
  | 0, _ => false
  | _ + 1, [] => true
  | fuel + 1, (n, .file _ _) :: rest =>
    !(rest.map Prod.fst).contains n && nodupEntriesF fuel rest
  | fuel + 1, (n, .dir cs) :: rest =>
    !(rest.map Prod.fst).contains n && nodupEntriesF fuel cs && nodupEntriesF fuel rest

/-- Every file mtime in the listing (recursively) is at most `now`: no
source file is dated in the future of the synchronization run.  Same fuel
discipline as `copyPassF`. -/
def mtimesLEF : Nat → Nat → List Entry → Bool
  | 0, _, _ => false
  | _ + 1, _, [] => true
  | fuel + 1, now, (_, .file _ m) :: rest => decide (m ≤ now) && mtimesLEF fuel now rest
  | fuel + 1, now, (_, .dir cs) :: rest => mtimesLEF fuel now cs && mtimesLEF fuel now rest

/-- Discriminate directories, as `fs.statSync(path).isDirectory()` does. -/
def isDirNode : FSNode → Bool
  | .dir _ => true
  | .file _ _ => false

/-- Child lookup under the shared libraries root:
`fs.existsSync(path.join(librariesDir, name))` is false for every name when
the root is not a directory. -/
def rootChild : FSNode → String → Option FSNode
  | .dir cs, n => findEntry cs n
  | .file _ _, _ => none

/-- The copy loop of `syncLibrariesIfNeeded`: for each used library name in
order, if `librariesDir/name` exists, run `smartSync` from it onto the
destination's entry of that name with no exclusions and no preserves;
names absent from the shared root are silently skipped. -/
def syncUsed (fuel : Nat) (root : FSNode) : List String → List Entry → Nat →
    Except Unit (List Entry)
  | [], acc, _ => .ok acc
  | libName :: rest, acc, now =>
    match rootChild root libName with
    | none => syncUsed fuel root rest acc now
    | some t =>
      do
        let r ← smartSync fuel (some t) (findEntry acc libName) [] [] now
        syncUsed fuel root rest (setEntry acc libName r.1) now

/-- The `syncLibrariesIfNeeded` materializer, parameterized by the already
computed used-library list.  When the shared libraries root does not exist
the function returns at once and the destination is untouched.  Otherwise:
(1) if the destination libraries directory exists, every child that is a
directory and whose name is not used is removed (`readdirSync` throwing when
the destination exists as a plain file); (2) if no libraries are used the
whole destination libraries directory is removed; (3) otherwise it is
created when absent and each used library present under the root is synced
into it. -/
def syncLibrariesIfNeeded (fuel : Nat) (libsRoot : Option FSNode) (used : List String)
    (destLibs : Option FSNode) (now : Nat) : Except Unit (Option FSNode) :=
  match libsRoot with
  | none => .ok destLibs
  | some root => do
    let cleaned ← match destLibs with
      | none => Except.ok (none : Option (List Entry))
      | some (.file _ _) => Except.error ()
      | some (.dir ds) =>
        Except.ok (some (ds.filter (fun e => !isDirNode e.2 || used.contains e.1)))
    if used.isEmpty then
      Except.ok none
    else do
      let final ← syncUsed fuel root used (cleaned.getD []) now
      Except.ok (some (.dir final))

/-- Immediate child of an optional directory node, `none` when the node is
absent or not a directory. -/
def childOf : Option FSNode → String → Option FSNode
  | some (.dir cs), n => findEntry cs n
  | _, _ => none

/-- Whether an optional directory node has a child of the given name that is
itself a directory — a materialized library, in the destination libraries
directory. -/
def hasDirChild (t : Option FSNode) (n : String) : Bool :=
  match childOf t n with
  | some (.dir _) => true
  | _ => false

/-- Whitespace as matched by the `\s` class of the scanner's regexes
(restricted to the ASCII range: space, tab, line feed, carriage return,
vertical tab, form feed). -/
def isWsChar (c : Char) : Bool :=
  c = ' ' || c = '\t' || c = '\n' || c = '\r' || c = Char.ofNat 11 || c = Char.ofNat 12

/-- Characters matched by the dot of the scanner's regexes: anything except
a line terminator. -/
def isDotChar (c : Char) : Bool := c ≠ '\n' && c ≠ '\r'

/-- The three quote characters of the regexes' quote classes: double quote,
apostrophe (code 39) and backtick (code 96). -/
def isQuoteChar (c : Char) : Bool := c = '"' || c = Char.ofNat 39 || c = Char.ofNat 96

/-- Strip an expected literal prefix from the input. -/
def dropLit : List Char → List Char → Option (List Char)
  | [], cs => some cs
  | l :: ls, c :: cs => if c = l then dropLit ls cs else none
  | _ :: _, [] => none

/-- Return the first success of `f` along a list of candidates: the
backtracking order of the regex engine. -/
def firstSome (f : α → Option β) : List α → Option β
  | [] => none
  | a :: as =>
    match f a with
    | some b => some b
    | none => firstSome f as

/-- All ways for a greedy `X*` on the class `p` to leave a rest, longest
consumption first. -/
def greedyStar (p : Char → Bool) : List Char → List (List Char)
  | [] => [[]]
  | c :: rest => if p c then greedyStar p rest ++ [c :: rest] else [c :: rest]

/-- All ways for a greedy `X+` on the class `p` to leave a rest, longest
consumption first. -/
def greedyPlus (p : Char → Bool) (cs : List Char) : List (List Char) :=
  match cs with
  | [] => []
  | c :: rest => if p c then greedyStar p rest else []

/-- All ways for a lazy `X*?` on the class `p` to leave a rest, shortest
consumption first. -/
def lazyStar (p : Char → Bool) : List Char → List (List Char)
  | [] => [[]]
  | c :: rest => (c :: rest) :: (if p c then lazyStar p rest else [])

/-- All ways for a greedy capturing `X*` to split the input into a captured
prefix and a rest, longest capture first. -/
def greedyStarCap (p : Char → Bool) : List Char → List (List Char × List Char)
  | [] => [([], [])]
  | c :: rest =>
    if p c then ((greedyStarCap p rest).map (fun pr => (c :: pr.1, pr.2))) ++ [([], c :: rest)]
    else [([], c :: rest)]

/-- All ways for a greedy capturing `X+` to split the input, longest capture
first. -/
def greedyPlusCap (p : Char → Bool) (cs : List Char) : List (List Char × List Char) :=
  match cs with
  | [] => []
  | c :: rest =>
    if p c then (greedyStarCap p rest).map (fun pr => (c :: pr.1, pr.2)) else []

/-- Characters admitted by the capture class of the relative and bare
library patterns, the regex class excluding the slash, the apostrophe and
the double quote (the backtick is not excluded by the source regex). -/
def isCapChar (c : Char) : Bool := !(c = '/' || c = '"' || c = Char.ofNat 39)

/-- Characters admitted by the subpath class and by the aliased pattern's
capture class: anything but a quote character. -/
def isSubChar (c : Char) : Bool := !isQuoteChar c

/-- Close a capture against the quote class `['"`]`: succeed when the next
character is a quote, returning the capture as a string and the input after
the quote. -/
def quoteEnd (cap : List Char) : List Char → Option (String × List Char)
  | q :: r4 => if isQuoteChar q then some (String.mk cap, r4) else none
  | [] => none

/-- The greedy optional subpath `(?:\/[^'"`]*)?` followed by the closing
quote, tried with the subpath present: a slash, then the longest run of
non-quote characters that lets the closing quote match. -/
def subpathPart (cap : List Char) : List Char → Option (String × List Char)
  | c :: r2 => if c = '/' then firstSome (quoteEnd cap) (greedyStar isSubChar r2) else none
  | [] => none

/-- The suffix shared by the relative and bare patterns after their
`libraries/` marker: the capture `([^\/'"]+)`, an optional greedy
`(?:\/[^'"`]*)?` subpath (present preferred, as greediness dictates), then a
closing quote from the quote class.  Returns the captured library name and
the input after the whole match. -/
def captureLib (cs : List Char) : Option (String × List Char) :=
  firstSome (fun pr => subpathPart pr.1 pr.2 <|> quoteEnd pr.1 pr.2)
    (greedyPlusCap isCapChar cs)

/-- The suffix of the aliased `@workspace` pattern after its marker: the
capture `([^'"`]+)` — note that this class does not exclude the slash — then
a closing quote. -/
def captureAlias (cs : List Char) : Option (String × List Char) :=
  firstSome (fun pr => quoteEnd pr.1 pr.2) (greedyPlusCap isSubChar cs)

/-- Pattern-specific part of the first regex, applied after the opening
quote: `\.\.?\/libraries\/` (two dots preferred, as the greedy optional dot
dictates) and then the shared capture suffix. -/
def tailRelative (cs : List Char) : Option (String × List Char) :=
  match dropLit "../libraries/".toList cs with
  | some r => captureLib r
  | none =>
    match dropLit "./libraries/".toList cs with
    | some r => captureLib r
    | none => none

/-- Pattern-specific part of the second regex after the opening quote:
`libraries\/` and then the shared capture suffix. -/
def tailBare (cs : List Char) : Option (String × List Char) :=
  match dropLit "libraries/".toList cs with
  | some r => captureLib r
  | none => none

/-- Pattern-specific part of the third regex after the opening quote:
`@workspace\/` and then the aliased capture suffix. -/
def tailAlias (cs : List Char) : Option (String × List Char) :=
  match dropLit "@workspace/".toList cs with
  | some r => captureAlias r
  | none => none

/-- Match one of the scanner's regexes at the start of the input.  All three
share the prefix `import\s+.*?\s+from\s+['"`]`; `tailFn` is the
pattern-specific part applied after the opening quote.  Backtracking runs in
the engine's order: greedy pieces longest first, the lazy dot-star shortest
first, first overall success wins. -/
def matchImportFrom (tailFn : List Char → Option (String × List Char)) (cs : List Char) :
    Option (String × List Char) :=
  (dropLit "import".toList cs).bind (fun r1 =>
    firstSome (fun r2 =>
      firstSome (fun r3 =>
        firstSome (fun r4 =>
          (dropLit "from".toList r4).bind (fun r5 =>
            firstSome (fun r6 =>
              match r6 with
              | q :: r7 => if isQuoteChar q then tailFn r7 else none
              | [] => none) (greedyPlus isWsChar r5)))
          (greedyPlus isWsChar r3))
        (lazyStar isDotChar r2))
      (greedyPlus isWsChar r1))

/-- The `regex.exec` loop with the `g` flag: scan the input left to right,
and on a match record the capture and resume after the end of the match.
The fuel bounds the number of scanning steps; since every step consumes at
least one character, `length + 1` steps always suffice (see `scanPat`). -/
def scanPatF (tailFn : List Char → Option (String × List Char)) : Nat → List Char → List String
  | 0, _ => []
  | _ + 1, [] => []
  | fuel + 1, c :: rest =>
    match matchImportFrom tailFn (c :: rest) with
    | some (cap, restAfter) => cap :: scanPatF tailFn fuel restAfter
    | none => scanPatF tailFn fuel rest

/-- All captures of one pattern over a file's full text, in match order. -/
def scanPat (tailFn : List Char → Option (String × List Char)) (cs : List Char) : List String :=
  scanPatF tailFn (cs.length + 1) cs

/-- All captures of the three import patterns over one file's text, in the
order the source applies them. -/
def scanImports (content : List Char) : List String :=
  scanPat tailRelative content ++ scanPat tailBare content ++ scanPat tailAlias content

/-- Insertion into the used-library accumulator with the insertion-order
set semantics of the JavaScript `Set`. -/
def addUniq (acc : List String) (x : String) : List String :=
  if acc.contains x then acc else acc ++ [x]

/-- The scanning loop of `detectLibraryUsage` over the files found by
`getAllFiles`, each given as `some content` when readable and `none` when
`fs.readFileSync` would throw.  The read is not guarded by any try/catch in
the source, so an unreadable file aborts the whole scan with the error. -/
def detectLibraryUsage : List (Option (List Char)) → List String → Except Unit (List String)
  | [], acc => .ok acc
  | none :: _, _ => .error ()
  | some content :: rest, acc =>
    detectLibraryUsage rest ((scanImports content).foldl addUniq acc)

/-- State of the `watchTask` scheduler: the two flags of the source plus, as
observables for the specification, the number of cycles currently executing
and the number of cycles ever started. -/
structure WatchState where
  taskInProgress : Bool
  pendingWork : Bool
  running : Nat
  started : Nat
deriving DecidableEq

/-- Events driving the scheduler: a filesystem change delivered by the
watcher, or the termination (stop or error) of the running cycle. -/
inductive WEvent where
  | change
  | finish

/-- One transition of `watchTask`.  A change event while a task is in
progress merely sets `pendingWork`; otherwise it starts a cycle
(`executeTask`, whose start callback sets `taskInProgress`).  A finish event
with `pendingWork` set clears the flag and immediately starts the follow-up
cycle (one cycle ends, one begins, `taskInProgress` stays true); with the
flag clear it returns the watcher to waiting. -/
def wstep (s : WatchState) : WEvent → WatchState
  | .change =>
    if s.taskInProgress then { s with pendingWork := true }
    else { s with taskInProgress := true, running := s.running + 1, started := s.started + 1 }
  | .finish =>
    if s.pendingWork then { s with pendingWork := false, started := s.started + 1 }
    else { s with taskInProgress := false, running := s.running - 1 }

/-- Deliver `k` change events in a row. -/
def applyChanges : Nat → WatchState → WatchState
  | 0, s => s
  | k + 1, s => applyChanges k (wstep s .change)

/-- States reachable by the scheduler.  `watchTask` starts the initial cycle
before registering the watcher, so the initial state has one running cycle
and both observations at one; a finish event can only be delivered while a
cycle is running. -/
inductive WReach : WatchState → Prop where
  | init : WReach ⟨true, false, 1, 1⟩
  | change {s} : WReach s → WReach (wstep s .change)
  | finish {s} : WReach s → 1 ≤ s.running → WReach (wstep s .finish)

example :
    smartSync 10 (some (.dir [("a.txt", .file 3 5000), ("sub", .dir [("b", .file 1 2000)])]))
      (some (.dir [("old", .file 7 1)])) [] [] 99000 =
      .ok (.dir [("a.txt", .file 3 99000), ("sub", .dir [("b", .file 1 99000)])], 2, 1) := by rfl

theorem deletePass_eq_filter (srcNames pres : List String) (dst : List Entry) :
    deletePass srcNames pres dst =
      (dst.filter (fun e => srcNames.contains e.1 || pres.contains e.1),
       (dst.filter (fun e => !(srcNames.contains e.1 || pres.contains e.1))).length) := by
  induction dst with
  | nil => rfl
  | cons e rest ih =>
    obtain ⟨n, node⟩ := e
    simp only [deletePass, ih, List.filter]
    cases h : srcNames.contains n || pres.contains n <;> simp [h]

/-- C10 : pointing smartSync at a missing source treats the source listing as
empty: the destination directory is created when absent, every immediate
destination child whose name is not in the preserve list is deleted, and no
file is copied. -/
theorem smartSync_missing_source (fuel : Nat) (ds : List Entry) (excl pres : List String)
    (now : Nat) :
    smartSync (fuel + 1) none (some (.dir ds)) excl pres now =
      .ok (.dir (ds.filter fun e => pres.contains e.1), 0,
           (ds.filter fun e => !pres.contains e.1).length) ∧
    smartSync (fuel + 1) none none excl pres now = .ok (.dir [], 0, 0) := by
  constructor
  · have h1 : smartSync (fuel + 1) none (some (.dir ds)) excl pres now =
        Except.ok (FSNode.dir (deletePass [] pres ds).1, 0, (deletePass [] pres ds).2) := rfl
    rw [h1, deletePass_eq_filter]
    simp
  · rfl

theorem wreach_running {s : WatchState} (h : WReach s) :
    s.running = if s.taskInProgress then 1 else 0 := by
  induction h with
  | init => rfl
  | @change s' h ih =>
    cases hip : s'.taskInProgress <;> simp [wstep, hip] at ih ⊢ <;> omega
  | @finish s' h hrun ih =>
    cases hp : s'.pendingWork <;> cases hip : s'.taskInProgress <;>
      simp [wstep, hp, hip] at ih hrun ⊢ <;> omega

theorem applyChanges_inProgress (k : Nat) (s : WatchState) (h : s.taskInProgress = true) :
    applyChanges (k + 1) s = { s with pendingWork := true } := by
  induction k generalizing s with
  | zero => simp [applyChanges, wstep, h]
  | succ k ih =>
    have step : applyChanges (k + 2) s = applyChanges (k + 1) (wstep s .change) := rfl
    have hw : wstep s .change = { s with pendingWork := true } := by simp [wstep, h]
    rw [step, hw, ih _ (by simp [h])]

/-- C8 : while a cycle is in progress, a burst of k+1 change events only sets
the pendingWork flag (no new cycle starts: the started count and the number
of running cycles are unchanged), the finish of the running cycle then starts
exactly one follow-up cycle and clears the flag, and in every reachable state
at most one cycle is running, so two cycles never overlap. -/
theorem watchTask_serializes (s : WatchState) (k : Nat) (h : WReach s) :
    s.running ≤ 1 ∧
    (s.taskInProgress = true →
      (applyChanges (k + 1) s).pendingWork = true ∧
      (applyChanges (k + 1) s).started = s.started ∧
      (applyChanges (k + 1) s).running = s.running ∧
      (wstep (applyChanges (k + 1) s) .finish).started = s.started + 1 ∧
      (wstep (applyChanges (k + 1) s) .finish).pendingWork = false ∧
      (wstep (applyChanges (k + 1) s) .finish).running = s.running) := by
  constructor
  · rw [wreach_running h]
    split <;> omega
  · intro hip
    rw [applyChanges_inProgress k s hip]
    refine ⟨rfl, rfl, rfl, ?_, ?_, ?_⟩ <;> simp [wstep]

/-- C8 witness: the theorem applied to the initial state and a burst of two
change events. -/
theorem watchTask_serializes_witness :
    (⟨true, false, 1, 1⟩ : WatchState).running ≤ 1 ∧
    ((⟨true, false, 1, 1⟩ : WatchState).taskInProgress = true →
      (applyChanges 2 ⟨true, false, 1, 1⟩).pendingWork = true ∧
      (applyChanges 2 ⟨true, false, 1, 1⟩).started = (⟨true, false, 1, 1⟩ : WatchState).started ∧
      (applyChanges 2 ⟨true, false, 1, 1⟩).running = (⟨true, false, 1, 1⟩ : WatchState).running ∧
      (wstep (applyChanges 2 ⟨true, false, 1, 1⟩) .finish).started =
        (⟨true, false, 1, 1⟩ : WatchState).started + 1 ∧
      (wstep (applyChanges 2 ⟨true, false, 1, 1⟩) .finish).pendingWork = false ∧
      (wstep (applyChanges 2 ⟨true, false, 1, 1⟩) .finish).running =
        (⟨true, false, 1, 1⟩ : WatchState).running) :=
  watchTask_serializes ⟨true, false, 1, 1⟩ 1 WReach.init

theorem exceptBindOk {α β : Type} {x : Except Unit α} {f : α → Except Unit β} {b : β}
    (h : (x >>= f) = .ok b) : ∃ a, x = .ok a ∧ f a = .ok b := by
  cases x with
  | error e => simp [Bind.bind, Except.bind] at h
  | ok a => exact ⟨a, rfl, by simpa [Bind.bind, Except.bind] using h⟩

theorem findEntry_setEntry_self (l : List Entry) (n : String) (v : FSNode) :
    findEntry (setEntry l n v) n = some v := by
  induction l with
  | nil => simp [setEntry, findEntry]
  | cons e rest ih =>
    obtain ⟨m, x⟩ := e
    by_cases h : m = n <;> simp [setEntry, findEntry, h, ih]

theorem findEntry_setEntry_ne (l : List Entry) {m n : String} (v : FSNode) (h : m ≠ n) :
    findEntry (setEntry l m v) n = findEntry l n := by
  induction l with
  | nil => simp [setEntry, findEntry, h]
  | cons e rest ih =>
    obtain ⟨a, x⟩ := e
    by_cases ha : a = m
    · subst ha
      simp [setEntry, findEntry, h, h.symm]
    · by_cases han : a = n <;> simp [setEntry, findEntry, ha, han, ih, h.symm]

theorem tryCopy_findEntry_ne (dst : List Entry) {m n : String} (s now : Nat) (h : m ≠ n) :
    findEntry (tryCopy dst m s now).1 n = findEntry dst n := by
  unfold tryCopy
  cases hf : findEntry dst m with
  | none => simp [findEntry_setEntry_ne _ _ h]
  | some node => cases node <;> simp [findEntry_setEntry_ne _ _ h]

theorem copyPassF_findEntry_preserved {fuel : Nat} {src dst dst' : List Entry}
    {excl : List String} {now c d : Nat} {n : String}
    (hok : copyPassF fuel src dst excl now = .ok (dst', c, d))
    (hn : n ∉ src.map Prod.fst) :
    findEntry dst' n = findEntry dst n := by
  induction fuel generalizing src dst dst' c d with
  | zero => simp [copyPassF] at hok
  | succ fuel ih =>
    cases src with
    | nil =>
      simp only [copyPassF, Except.ok.injEq, Prod.mk.injEq] at hok
      rw [← hok.1]
    | cons e rest =>
      obtain ⟨n1, node1⟩ := e
      simp only [List.map_cons, List.mem_cons] at hn
      push_neg at hn
      obtain ⟨hne, hnr⟩ := hn
      cases node1 with
      | file s1 m1 =>
        simp only [copyPassF] at hok
        by_cases hig : ignorableFile n1 = true
        · rw [if_pos hig] at hok
          exact ih hok hnr
        · rw [if_neg hig] at hok
          by_cases hsc : shouldCopy s1 m1 (findEntry dst n1) = true
          · rw [if_pos hsc] at hok
            obtain ⟨a, ha, hf⟩ := exceptBindOk hok
            simp only [Except.ok.injEq, Prod.mk.injEq] at hf
            have hp := ih ha hnr
            rw [← hf.1, hp, tryCopy_findEntry_ne _ _ _ (Ne.symm hne)]
          · rw [if_neg hsc] at hok
            exact ih hok hnr
      | dir cs1 =>
        simp only [copyPassF] at hok
        by_cases hex : excl.contains n1 = true
        · rw [if_pos hex] at hok
          exact ih hok hnr
        · rw [if_neg hex] at hok
          cases hfind : findEntry dst n1 with
          | none =>
            rw [hfind] at hok
            obtain ⟨a, ha, hok2⟩ := exceptBindOk hok
            obtain ⟨b, hb, hok3⟩ := exceptBindOk hok2
            simp only [Except.ok.injEq, Prod.mk.injEq] at hok3
            have hp := ih hb hnr
            rw [← hok3.1, hp, findEntry_setEntry_ne _ _ (Ne.symm hne)]
          | some dnode =>
            cases dnode with
            | file ds dm => rw [hfind] at hok; simp at hok
            | dir dcs =>
              rw [hfind] at hok
              obtain ⟨a, ha, hok2⟩ := exceptBindOk hok
              obtain ⟨b, hb, hok3⟩ := exceptBindOk hok2
              simp only [Except.ok.injEq, Prod.mk.injEq] at hok3
              have hp := ih hb hnr
              rw [← hok3.1, hp, findEntry_setEntry_ne _ _ (Ne.symm hne)]

theorem findEntry_filter_namePred (p : String → Bool) (dst : List Entry) (n : String) :
    findEntry (dst.filter (fun e => p e.1)) n = if p n then findEntry dst n else none := by
  induction dst with
  | nil => simp [findEntry]
  | cons e rest ih =>
    obtain ⟨n1, node1⟩ := e
    by_cases hp : p n1 = true
    · by_cases h1 : n1 = n
      · subst h1
        simp [List.filter, hp, findEntry, ih]
      · simp [List.filter, hp, findEntry, h1, ih]
    · by_cases h1 : n1 = n
      · subst h1
        simp [List.filter, hp, findEntry, ih, Bool.not_eq_true]
      · simp [List.filter, hp, findEntry, h1, ih]

theorem copyPassF_file_entry {fuel : Nat} {src dst dst' : List Entry} {excl : List String}
    {now c d : Nat} {n : String} {s m : Nat}
    (hok : copyPassF fuel src dst excl now = .ok (dst', c, d))
    (hmem : (n, FSNode.file s m) ∈ src)
    (hnd : (src.map Prod.fst).Nodup)
    (hig : ignorableFile n = false)
    (hdir : ∀ ds, findEntry dst n ≠ some (.dir ds)) :
    findEntry dst' n =
      if shouldCopy s m (findEntry dst n) then some (.file s now) else findEntry dst n := by
  induction fuel generalizing src dst dst' c d with
  | zero => simp [copyPassF] at hok
  | succ fuel ih =>
    cases src with
    | nil => simp at hmem
    | cons e rest =>
      obtain ⟨n1, node1⟩ := e
      rcases List.mem_cons.mp hmem with heq | hmemr
      · simp only [Prod.mk.injEq] at heq
        obtain ⟨hn1, hnode⟩ := heq
        subst hn1
        subst hnode
        have hnotin : n ∉ rest.map Prod.fst := by
          simp only [List.map_cons] at hnd
          exact (List.nodup_cons.mp hnd).1
        simp only [copyPassF] at hok
        rw [if_neg (by simp [hig])] at hok
        by_cases hsc : shouldCopy s m (findEntry dst n) = true
        · rw [if_pos hsc] at hok
          obtain ⟨a, ha, hf⟩ := exceptBindOk hok
          simp only [Except.ok.injEq, Prod.mk.injEq] at hf
          have hp := copyPassF_findEntry_preserved ha hnotin
          have ht : (tryCopy dst n s now).1 = setEntry dst n (.file s now) := by
            unfold tryCopy
            cases hfind : findEntry dst n with
            | none => rfl
            | some node =>
              cases node with
              | file a b => rfl
              | dir ds => exact absurd hfind (hdir ds)
          rw [if_pos hsc, ← hf.1, hp, ht, findEntry_setEntry_self]
        · rw [if_neg hsc] at hok
          rw [if_neg hsc]
          exact copyPassF_findEntry_preserved hok hnotin
      · have hn1ne : n1 ≠ n := by
          have hmm : n ∈ rest.map Prod.fst := List.mem_map.mpr ⟨_, hmemr, rfl⟩
          simp only [List.map_cons] at hnd
          intro hEq
          subst hEq
          exact (List.nodup_cons.mp hnd).1 hmm
        have hndr : (rest.map Prod.fst).Nodup := by
          simp only [List.map_cons] at hnd
          exact (List.nodup_cons.mp hnd).2
        cases node1 with
        | file s1 m1 =>
          simp only [copyPassF] at hok
          by_cases hig1 : ignorableFile n1 = true
          · rw [if_pos hig1] at hok
            exact ih hok hmemr hndr hdir
          · rw [if_neg hig1] at hok
            by_cases hsc1 : shouldCopy s1 m1 (findEntry dst n1) = true
            · rw [if_pos hsc1] at hok
              obtain ⟨a, ha, hf⟩ := exceptBindOk hok
              simp only [Except.ok.injEq, Prod.mk.injEq] at hf
              have htc := tryCopy_findEntry_ne dst s1 now hn1ne
              have hdir2 : ∀ ds, findEntry (tryCopy dst n1 s1 now).1 n ≠ some (.dir ds) := by
                rw [htc]
                exact hdir
              have hrec := ih ha hmemr hndr hdir2
              rw [← hf.1, hrec, htc]
            · rw [if_neg hsc1] at hok
              exact ih hok hmemr hndr hdir
        | dir cs1 =>
          simp only [copyPassF] at hok
          by_cases hex : excl.contains n1 = true
          · rw [if_pos hex] at hok
            exact ih hok hmemr hndr hdir
          · rw [if_neg hex] at hok
            cases hfind : findEntry dst n1 with
            | none =>
              rw [hfind] at hok
              obtain ⟨a, ha, hok2⟩ := exceptBindOk hok
              obtain ⟨b, hb, hok3⟩ := exceptBindOk hok2
              simp only [Except.ok.injEq, Prod.mk.injEq] at hok3
              have hse := findEntry_setEntry_ne dst (FSNode.dir a.1) hn1ne
              have hdir2 : ∀ ds, findEntry (setEntry dst n1 (FSNode.dir a.1)) n ≠ some (.dir ds) := by
                rw [hse]
                exact hdir
              have hrec := ih hb hmemr hndr hdir2
              rw [← hok3.1, hrec, hse]
            | some dnode =>
              cases dnode with
              | file ds dm =>
                rw [hfind] at hok
                simp at hok
              | dir dcs =>
                rw [hfind] at hok
                obtain ⟨a, ha, hok2⟩ := exceptBindOk hok
                obtain ⟨b, hb, hok3⟩ := exceptBindOk hok2
                simp only [Except.ok.injEq, Prod.mk.injEq] at hok3
                have hse := findEntry_setEntry_ne dst (FSNode.dir a.1) hn1ne
                have hdir2 : ∀ ds, findEntry (setEntry dst n1 (FSNode.dir a.1)) n ≠ some (.dir ds) := by
                  rw [hse]
                  exact hdir
                have hrec := ih hb hmemr hndr hdir2
                rw [← hok3.1, hrec, hse]

theorem contains_of_mem {l : List String} {a : String} (h : a ∈ l) : l.contains a = true := by
  simpa using h

theorem shouldCopy_file_iff (s m ds dm : Nat) :
    shouldCopy s m (some (.file ds dm)) = true ↔ (s ≠ ds ∨ m / 1000 > dm / 1000) := by
  by_cases h : s = ds <;> simp [shouldCopy, h]

theorem getNode_dir_single (l : List Entry) (n : String) :
    getNode (.dir l) [n] = findEntry l n := by
  cases h : findEntry l n <;> simp [getNode, h]

theorem deletePass_fst_findEntry (srcNames pres : List String) (dst : List Entry) (n : String) :
    findEntry (deletePass srcNames pres dst).1 n =
      if srcNames.contains n || pres.contains n then findEntry dst n else none := by
  rw [deletePass_eq_filter]
  exact findEntry_filter_namePred (fun x => srcNames.contains x || pres.contains x) dst n

theorem smartSync_dir_inv {fuel : Nat} {src dst : List Entry} {excl pres : List String}
    {now : Nat} {t' : FSNode} {c d : Nat}
    (hok : smartSync fuel (some (.dir src)) (some (.dir dst)) excl pres now = .ok (t', c, d)) :
    ∃ dst2 c2 d2,
      copyPassF fuel src (deletePass (src.map Prod.fst) pres dst).1 excl now =
        .ok (dst2, c2, d2) ∧
      t' = FSNode.dir dst2 ∧ c = c2 ∧ d = (deletePass (src.map Prod.fst) pres dst).2 + d2 := by
  have h1 : (syncDir fuel src dst excl pres now >>= fun r =>
      Except.ok (FSNode.dir r.1, r.2.1, r.2.2)) = .ok (t', c, d) := hok
  obtain ⟨r, hr, hf⟩ := exceptBindOk h1
  have h2 : (copyPassF fuel src (deletePass (src.map Prod.fst) pres dst).1 excl now >>=
      fun x => Except.ok (x.1, x.2.1, (deletePass (src.map Prod.fst) pres dst).2 + x.2.2)) =
      .ok r := hr
  obtain ⟨x, hx, hx2⟩ := exceptBindOk h2
  simp only [Except.ok.injEq] at hx2
  subst hx2
  simp only [Except.ok.injEq, Prod.mk.injEq] at hf
  exact ⟨x.1, x.2.1, x.2.2, hx, hf.1.symm, hf.2.1.symm, hf.2.2.symm⟩

/-- C1 : for every non-ignorable file child of the source directory whose
destination entry already exists as a file, after smartSync the destination
entry is the freshly copied file exactly when the `shouldCopy` decision is
true, and that decision is true if and only if the sizes differ or the
source mtime truncated to whole seconds is strictly greater than the
destination's; in particular a source file of equal size and
older-or-equal-second mtime is never copied. -/
theorem smartSync_copy_decision {fuel : Nat} {src dst : List Entry} {excl pres : List String}
    {now : Nat} {t' : FSNode} {c d : Nat} {n : String} {s m ds dm : Nat}
    (hok : smartSync fuel (some (.dir src)) (some (.dir dst)) excl pres now = .ok (t', c, d))
    (hmem : (n, FSNode.file s m) ∈ src)
    (hnd : (src.map Prod.fst).Nodup)
    (hig : ignorableFile n = false)
    (hdst : findEntry dst n = some (.file ds dm)) :
    getNode t' [n] =
      (if shouldCopy s m (some (.file ds dm)) = true then some (.file s now)
       else some (.file ds dm)) ∧
    (shouldCopy s m (some (.file ds dm)) = true ↔ (s ≠ ds ∨ m / 1000 > dm / 1000)) := by
  obtain ⟨dst2, c2, d2, hcp, ht, hc, hd⟩ := smartSync_dir_inv hok
  have hmm : n ∈ src.map Prod.fst := List.mem_map.mpr ⟨_, hmem, rfl⟩
  have hcond : ((src.map Prod.fst).contains n || pres.contains n) = true := by
    rw [contains_of_mem hmm]
    rfl
  have hkept : findEntry (deletePass (src.map Prod.fst) pres dst).1 n = findEntry dst n := by
    rw [deletePass_fst_findEntry, if_pos hcond]
  have hdir : ∀ ds0, findEntry (deletePass (src.map Prod.fst) pres dst).1 n ≠
      some (.dir ds0) := by
    rw [hkept, hdst]
    simp
  have htrack := copyPassF_file_entry hcp hmem hnd hig hdir
  rw [hkept, hdst] at htrack
  subst ht
  rw [getNode_dir_single]
  exact ⟨htrack, shouldCopy_file_iff s m ds dm⟩

/-- C1 witness: a source file of equal size and strictly newer second-level
mtime against the destination is copied. -/
theorem smartSync_copy_decision_witness :
    (getNode (FSNode.dir [("a", FSNode.file 5 10000)]) ["a"] =
      (if shouldCopy 5 3000 (some (.file 5 999)) = true then some (.file 5 10000)
       else some (.file 5 999))) ∧
    (shouldCopy 5 3000 (some (.file 5 999)) = true ↔
      ((5 : Nat) ≠ 5 ∨ 3000 / 1000 > 999 / 1000)) :=
  @smartSync_copy_decision 2 [("a", FSNode.file 5 3000)] [("a", FSNode.file 5 999)]
    [] [] 10000 (FSNode.dir [("a", FSNode.file 5 10000)]) 1 0 "a" 5 3000 5 999
    rfl (by simp) (by simp) (by rfl) rfl

/-- C6 counterexample : smartSync copies with `fs.copyFileSync`, which stamps
the destination with the time of the copy; at this input the source mtime is
5000 ms but the copied destination file carries mtime 99000 ms, so the copy
does not preserve the source file's modification timestamp. -/
theorem smartSync_mtime_not_preserved :
    smartSync 2 (some (.dir [("a", FSNode.file 3 5000)])) none [] [] 99000 =
      .ok (.dir [("a", FSNode.file 3 99000)], 1, 0) ∧ (99000 : Nat) ≠ 5000 :=
  ⟨rfl, by decide⟩

/-- C6 amended : every file copy performed by smartSync stamps the
destination file with the clock time `now` of the copying run — the source's
size is preserved but its modification time is not carried over (here for
the basic case of a destination entry that does not yet exist, where the
copy always happens). -/
theorem smartSync_copy_sets_now {fuel : Nat} {src dst : List Entry} {excl pres : List String}
    {now : Nat} {t' : FSNode} {c d : Nat} {n : String} {s m : Nat}
    (hok : smartSync fuel (some (.dir src)) (some (.dir dst)) excl pres now = .ok (t', c, d))
    (hmem : (n, FSNode.file s m) ∈ src)
    (hnd : (src.map Prod.fst).Nodup)
    (hig : ignorableFile n = false)
    (hdst : findEntry dst n = none) :
    getNode t' [n] = some (.file s now) := by
  obtain ⟨dst2, c2, d2, hcp, ht, hc, hd⟩ := smartSync_dir_inv hok
  have hkept : findEntry (deletePass (src.map Prod.fst) pres dst).1 n = none := by
    rw [deletePass_fst_findEntry, hdst]
    split <;> rfl
  have hdir : ∀ ds0, findEntry (deletePass (src.map Prod.fst) pres dst).1 n ≠
      some (.dir ds0) := by
    rw [hkept]
    simp
  have htrack := copyPassF_file_entry hcp hmem hnd hig hdir
  rw [hkept] at htrack
  subst ht
  rw [getNode_dir_single]
  simpa [shouldCopy] using htrack

/-- C6 witness: the amended theorem applied to a copy of a file dated 5000 ms
performed at clock time 99000 ms. -/
theorem smartSync_copy_sets_now_witness :
    getNode (FSNode.dir [("a", FSNode.file 3 99000)]) ["a"] = some (.file 3 99000) :=
  @smartSync_copy_sets_now 2 [("a", FSNode.file 3 5000)] []
    [] [] 99000 (FSNode.dir [("a", FSNode.file 3 99000)]) 1 0 "a" 3 5000
    rfl (by simp) (by simp) (by rfl) rfl

theorem contains_eq_false_of_not_mem {l : List String} {a : String} (h : a ∉ l) :
    l.contains a = false := by
  simpa using h

theorem getNode_dir_cons (l : List Entry) (n : String) (rest : List String) :
    getNode (.dir l) (n :: rest) =
      match findEntry l n with
      | none => none
      | some child => getNode child rest := rfl

theorem copyPassF_dir_entry {fuel : Nat} {src dst dst' : List Entry} {excl : List String}
    {now c d : Nat} {nd : String} {scs : List Entry}
    (hok : copyPassF fuel src dst excl now = .ok (dst', c, d))
    (hmem : (nd, FSNode.dir scs) ∈ src)
    (hnd : (src.map Prod.fst).Nodup)
    (hexcl : excl.contains nd = false) :
    ∃ dcs2, findEntry dst' nd = some (.dir dcs2) ∧
      ∀ p, p ∉ scs.map Prod.fst → findEntry dcs2 p = none := by
  induction fuel generalizing src dst dst' c d with
  | zero => simp [copyPassF] at hok
  | succ fuel ih =>
    cases src with
    | nil => simp at hmem
    | cons e rest =>
      obtain ⟨n1, node1⟩ := e
      rcases List.mem_cons.mp hmem with heq | hmemr
      · simp only [Prod.mk.injEq] at heq
        obtain ⟨hn1, hnode⟩ := heq
        subst hn1
        subst hnode
        have hnotin : nd ∉ rest.map Prod.fst := by
          simp only [List.map_cons] at hnd
          exact (List.nodup_cons.mp hnd).1
        simp only [copyPassF] at hok
        rw [if_neg (by rw [hexcl]; exact Bool.false_ne_true)] at hok
        cases hfind : findEntry dst nd with
        | none =>
          rw [hfind] at hok
          obtain ⟨a, ha, hok2⟩ := exceptBindOk hok
          obtain ⟨b, hb, hok3⟩ := exceptBindOk hok2
          simp only [Except.ok.injEq, Prod.mk.injEq] at hok3
          refine ⟨a.1, ?_, ?_⟩
          · rw [← hok3.1, copyPassF_findEntry_preserved hb hnotin, findEntry_setEntry_self]
          · intro p hp
            rw [copyPassF_findEntry_preserved ha hp, deletePass_fst_findEntry,
              contains_eq_false_of_not_mem hp]
            rfl
        | some dnode =>
          cases dnode with
          | file fs fm =>
            rw [hfind] at hok
            simp at hok
          | dir dcs =>
            rw [hfind] at hok
            obtain ⟨a, ha, hok2⟩ := exceptBindOk hok
            obtain ⟨b, hb, hok3⟩ := exceptBindOk hok2
            simp only [Except.ok.injEq, Prod.mk.injEq] at hok3
            refine ⟨a.1, ?_, ?_⟩
            · rw [← hok3.1, copyPassF_findEntry_preserved hb hnotin, findEntry_setEntry_self]
            · intro p hp
              rw [copyPassF_findEntry_preserved ha hp, deletePass_fst_findEntry,
                contains_eq_false_of_not_mem hp]
              rfl
      · have hndr : (rest.map Prod.fst).Nodup := by
          simp only [List.map_cons] at hnd
          exact (List.nodup_cons.mp hnd).2
        cases node1 with
        | file s1 m1 =>
          simp only [copyPassF] at hok
          by_cases hig1 : ignorableFile n1 = true
          · rw [if_pos hig1] at hok
            exact ih hok hmemr hndr
          · rw [if_neg hig1] at hok
            by_cases hsc1 : shouldCopy s1 m1 (findEntry dst n1) = true
            · rw [if_pos hsc1] at hok
              obtain ⟨a, ha, hf⟩ := exceptBindOk hok
              simp only [Except.ok.injEq, Prod.mk.injEq] at hf
              obtain ⟨dcs2, h1, h2⟩ := ih ha hmemr hndr
              exact ⟨dcs2, by rw [← hf.1]; exact h1, h2⟩
            · rw [if_neg hsc1] at hok
              exact ih hok hmemr hndr
        | dir cs1 =>
          simp only [copyPassF] at hok
          by_cases hex1 : excl.contains n1 = true
          · rw [if_pos hex1] at hok
            exact ih hok hmemr hndr
          · rw [if_neg hex1] at hok
            cases hfind : findEntry dst n1 with
            | none =>
              rw [hfind] at hok
              obtain ⟨a, ha, hok2⟩ := exceptBindOk hok
              obtain ⟨b, hb, hok3⟩ := exceptBindOk hok2
              simp only [Except.ok.injEq, Prod.mk.injEq] at hok3
              obtain ⟨dcs2, h1, h2⟩ := ih hb hmemr hndr
              exact ⟨dcs2, by rw [← hok3.1]; exact h1, h2⟩
            | some dnode =>
              cases dnode with
              | file fs fm =>
                rw [hfind] at hok
                simp at hok
              | dir dcs =>
                rw [hfind] at hok
                obtain ⟨a, ha, hok2⟩ := exceptBindOk hok
                obtain ⟨b, hb, hok3⟩ := exceptBindOk hok2
                simp only [Except.ok.injEq, Prod.mk.injEq] at hok3
                obtain ⟨dcs2, h1, h2⟩ := ih hb hmemr hndr
                exact ⟨dcs2, by rw [← hok3.1]; exact h1, h2⟩

/-- C2 : after smartSync, every immediate destination child whose name is
neither in the source listing nor in the preserve list has been removed; and
the preserve list protects entries only at the top-level call — the
recursion into a subdirectory passes an empty preserve list, so a nested
destination child whose name is absent from the nested source listing is
removed no matter what the preserve list contains. -/
theorem smartSync_deletion_pass {fuel : Nat} {src dst : List Entry} {excl pres : List String}
    {now : Nat} {t' : FSNode} {c d : Nat}
    (hok : smartSync fuel (some (.dir src)) (some (.dir dst)) excl pres now = .ok (t', c, d)) :
    (∀ n, n ∉ src.map Prod.fst → n ∉ pres → getNode t' [n] = none) ∧
    (∀ nd scs, (nd, FSNode.dir scs) ∈ src → (src.map Prod.fst).Nodup →
      excl.contains nd = false →
      ∀ p, p ∉ scs.map Prod.fst → getNode t' [nd, p] = none) := by
  obtain ⟨dst2, c2, d2, hcp, ht, hc, hd⟩ := smartSync_dir_inv hok
  subst ht
  constructor
  · intro n hn hnp
    rw [getNode_dir_single]
    rw [copyPassF_findEntry_preserved hcp hn, deletePass_fst_findEntry,
      contains_eq_false_of_not_mem hn, contains_eq_false_of_not_mem hnp]
    rfl
  · intro nd scs hmem hnd hexcl p hp
    obtain ⟨dcs2, h1, h2⟩ := copyPassF_dir_entry hcp hmem hnd hexcl
    rw [getNode_dir_cons, h1]
    show getNode (FSNode.dir dcs2) [p] = none
    rw [getNode_dir_single]
    exact h2 p hp

/-- C2 witness: the stray top-level child `x` is removed, and the nested
child `p` of the subdirectory `d` is removed even though `p` is in the
preserve list of the top-level call. -/
theorem smartSync_deletion_pass_witness :
    getNode (FSNode.dir [("d", FSNode.dir []), ("a", FSNode.file 1 100)]) ["x"] = none ∧
    getNode (FSNode.dir [("d", FSNode.dir []), ("a", FSNode.file 1 100)]) ["d", "p"] = none := by
  have h := @smartSync_deletion_pass 3 [("a", FSNode.file 1 0), ("d", FSNode.dir [])]
    [("x", FSNode.file 2 0), ("d", FSNode.dir [("p", FSNode.file 3 0)])] [] ["p"] 100
    (FSNode.dir [("d", FSNode.dir []), ("a", FSNode.file 1 100)]) 1 2 rfl
  exact ⟨h.1 "x" (by decide) (by decide),
    h.2 "d" [] (by simp) (by decide) (by decide) "p" (by decide)⟩

theorem not_mem_of_contains_eq_false {l : List String} {a : String}
    (h : l.contains a = false) : a ∉ l := by
  intro hm
  rw [contains_of_mem hm] at h
  cases h

theorem findEntry_some_mem {l : List Entry} {n : String} {x : FSNode}
    (h : findEntry l n = some x) : n ∈ l.map Prod.fst := by
  induction l with
  | nil => simp [findEntry] at h
  | cons e rest ih =>
    obtain ⟨n1, node1⟩ := e
    by_cases h1 : n1 = n
    · subst h1
      simp
    · simp only [findEntry, if_neg h1] at h
      simp [ih h]

theorem getNode_nil (t : FSNode) : getNode t [] = some t := by
  cases t <;> rfl

theorem getNodeExcl_dir_cons (excl : List String) (l : List Entry) (q : String)
    (p' : List String) :
    getNodeExcl excl (.dir l) (q :: p') =
      match findEntry l q with
      | none => none
      | some (.file s m) => getNodeExcl excl (.file s m) p'
      | some (.dir ds) => if excl.contains q then none else getNodeExcl excl (.dir ds) p' := rfl

theorem nodupEntriesF_cons_file {fuel : Nat} {n1 : String} {s1 m1 : Nat} {rest : List Entry}
    (h : nodupEntriesF (fuel + 1) ((n1, FSNode.file s1 m1) :: rest) = true) :
    n1 ∉ rest.map Prod.fst ∧ nodupEntriesF fuel rest = true := by
  simp only [nodupEntriesF, Bool.and_eq_true, Bool.not_eq_true'] at h
  exact ⟨not_mem_of_contains_eq_false h.1, h.2⟩

theorem nodupEntriesF_cons_dir {fuel : Nat} {n1 : String} {cs1 rest : List Entry}
    (h : nodupEntriesF (fuel + 1) ((n1, FSNode.dir cs1) :: rest) = true) :
    n1 ∉ rest.map Prod.fst ∧ nodupEntriesF fuel cs1 = true ∧ nodupEntriesF fuel rest = true := by
  simp only [nodupEntriesF, Bool.and_eq_true, Bool.not_eq_true'] at h
  exact ⟨not_mem_of_contains_eq_false h.1.1, h.1.2, h.2⟩

theorem getNodeExcl_cons_lift {excl : List String} {n1 : String} {node1 : FSNode}
    {rest : List Entry} {p : List String} {s : Nat}
    (h : fileSizeOf (getNodeExcl excl (.dir rest) p) = some s)
    (hne : n1 ∉ rest.map Prod.fst) :
    fileSizeOf (getNodeExcl excl (.dir ((n1, node1) :: rest)) p) = some s := by
  cases p with
  | nil => simp [getNodeExcl, fileSizeOf] at h
  | cons q p' =>
    rw [getNodeExcl_dir_cons] at h ⊢
    cases hf : findEntry rest q with
    | none =>
      rw [hf] at h
      simp [fileSizeOf] at h
    | some x =>
      have hmem : q ∈ rest.map Prod.fst := findEntry_some_mem hf
      have hne2 : n1 ≠ q := fun hEq => hne (hEq ▸ hmem)
      have hfc : findEntry ((n1, node1) :: rest) q = findEntry rest q := by
        simp [findEntry, hne2]
      rw [hfc, hf]
      rw [hf] at h
      exact h

theorem deletePass_paths {srcNames pres : List String} {dst : List Entry} {q : String}
    {p' : List String} {x : FSNode}
    (h : getNode (.dir (deletePass srcNames pres dst).1) (q :: p') = some x) :
    getNode (.dir dst) (q :: p') = some x := by
  rw [getNode_dir_cons] at h ⊢
  rw [deletePass_fst_findEntry] at h
  by_cases hc : (srcNames.contains q || pres.contains q) = true
  · rw [if_pos hc] at h
    exact h
  · rw [if_neg hc] at h
    simp at h

theorem copyPassF_paths {fuel : Nat} {src dst dst' : List Entry} {excl : List String}
    {now c d : Nat}
    (hok : copyPassF fuel src dst excl now = .ok (dst', c, d))
    (hnd : nodupEntriesF fuel src = true) :
    ∀ p s m, getNode (.dir dst') p = some (.file s m) →
      getNode (.dir dst) p = some (.file s m) ∨
      fileSizeOf (getNodeExcl excl (.dir src) p) = some s := by
  induction fuel generalizing src dst dst' c d with
  | zero => simp [copyPassF] at hok
  | succ fuel ih =>
    cases src with
    | nil =>
      simp only [copyPassF, Except.ok.injEq, Prod.mk.injEq] at hok
      intro p s m h
      rw [hok.1]
      exact Or.inl h
    | cons e rest =>
      obtain ⟨n1, node1⟩ := e
      cases node1 with
      | file s1 m1 =>
        obtain ⟨hne, hndr⟩ := nodupEntriesF_cons_file hnd
        intro p s m h
        simp only [copyPassF] at hok
        by_cases hig1 : ignorableFile n1 = true
        · rw [if_pos hig1] at hok
          rcases ih hok hndr p s m h with hl | hr
          · exact Or.inl hl
          · exact Or.inr (getNodeExcl_cons_lift hr hne)
        · rw [if_neg hig1] at hok
          by_cases hsc : shouldCopy s1 m1 (findEntry dst n1) = true
          · rw [if_pos hsc] at hok
            obtain ⟨a, ha, hf⟩ := exceptBindOk hok
            simp only [Except.ok.injEq, Prod.mk.injEq] at hf
            rw [← hf.1] at h
            cases hfind : findEntry dst n1 with
            | some dnode =>
              cases dnode with
              | dir dd =>
                have ht1 : (tryCopy dst n1 s1 now).1 = dst := by
                  simp [tryCopy, hfind]
                rw [ht1] at ha
                rcases ih ha hndr p s m h with hl | hr
                · exact Or.inl hl
                · exact Or.inr (getNodeExcl_cons_lift hr hne)
              | file ds0 dm0 =>
                have ht1 : (tryCopy dst n1 s1 now).1 = setEntry dst n1 (.file s1 now) := by
                  simp [tryCopy, hfind]
                rw [ht1] at ha
                rcases ih ha hndr p s m h with hl | hr
                · cases p with
                  | nil => simp [getNode] at hl
                  | cons q p' =>
                    rw [getNode_dir_cons] at hl
                    by_cases hq : n1 = q
                    · subst hq
                      rw [findEntry_setEntry_self] at hl
                      have hl2 : getNode (FSNode.file s1 now) p' = some (.file s m) := hl
                      cases p' with
                      | nil =>
                        rw [getNode_nil] at hl2
                        simp only [Option.some.injEq, FSNode.file.injEq] at hl2
                        refine Or.inr ?_
                        rw [getNodeExcl_dir_cons]
                        simp [getNodeExcl, findEntry, fileSizeOf, hl2.1]
                      | cons r p'' => simp [getNode] at hl2
                    · rw [findEntry_setEntry_ne _ _ hq] at hl
                      refine Or.inl ?_
                      rw [getNode_dir_cons]
                      exact hl
                · exact Or.inr (getNodeExcl_cons_lift hr hne)
            | none =>
              have ht1 : (tryCopy dst n1 s1 now).1 = setEntry dst n1 (.file s1 now) := by
                simp [tryCopy, hfind]
              rw [ht1] at ha
              rcases ih ha hndr p s m h with hl | hr
              · cases p with
                | nil => simp [getNode] at hl
                | cons q p' =>
                  rw [getNode_dir_cons] at hl
                  by_cases hq : n1 = q
                  · subst hq
                    rw [findEntry_setEntry_self] at hl
                    have hl2 : getNode (FSNode.file s1 now) p' = some (.file s m) := hl
                    cases p' with
                    | nil =>
                      rw [getNode_nil] at hl2
                      simp only [Option.some.injEq, FSNode.file.injEq] at hl2
                      refine Or.inr ?_
                      rw [getNodeExcl_dir_cons]
                      simp [getNodeExcl, findEntry, fileSizeOf, hl2.1]
                    | cons r p'' => simp [getNode] at hl2
                  · rw [findEntry_setEntry_ne _ _ hq] at hl
                    refine Or.inl ?_
                    rw [getNode_dir_cons]
                    exact hl
              · exact Or.inr (getNodeExcl_cons_lift hr hne)
          · rw [if_neg hsc] at hok
            rcases ih hok hndr p s m h with hl | hr
            · exact Or.inl hl
            · exact Or.inr (getNodeExcl_cons_lift hr hne)
      | dir cs1 =>
        obtain ⟨hne, hndc, hndr⟩ := nodupEntriesF_cons_dir hnd
        intro p s m h
        simp only [copyPassF] at hok
        by_cases hex : excl.contains n1 = true
        · rw [if_pos hex] at hok
          rcases ih hok hndr p s m h with hl | hr
          · exact Or.inl hl
          · exact Or.inr (getNodeExcl_cons_lift hr hne)
        · rw [if_neg hex] at hok
          cases hfind : findEntry dst n1 with
          | some dnode =>
            cases dnode with
            | file fs fm =>
              rw [hfind] at hok
              simp at hok
            | dir dcs =>
              rw [hfind] at hok
              obtain ⟨a, ha, hok2⟩ := exceptBindOk hok
              obtain ⟨b, hb, hok3⟩ := exceptBindOk hok2
              simp only [Except.ok.injEq, Prod.mk.injEq] at hok3
              rw [← hok3.1] at h
              rcases ih hb hndr p s m h with hl | hr
              · cases p with
                | nil => simp [getNode] at hl
                | cons q p' =>
                  rw [getNode_dir_cons] at hl
                  by_cases hq : n1 = q
                  · subst hq
                    rw [findEntry_setEntry_self] at hl
                    have hl2 : getNode (.dir a.1) p' = some (.file s m) := hl
                    rcases ih ha hndc p' s m hl2 with hl3 | hr3
                    · cases p' with
                      | nil => simp [getNode] at hl3
                      | cons q2 p'' =>
                        have hl4 := deletePass_paths hl3
                        refine Or.inl ?_
                        rw [getNode_dir_cons, hfind]
                        exact hl4
                    · refine Or.inr ?_
                      rw [getNodeExcl_dir_cons]
                      have hfc : findEntry ((n1, FSNode.dir cs1) :: rest) n1 =
                          some (.dir cs1) := by
                        simp [findEntry]
                      rw [hfc]
                      have hnx : n1 ∉ excl := by simpa using hex
                      simpa [hnx] using hr3
                  · rw [findEntry_setEntry_ne _ _ hq] at hl
                    refine Or.inl ?_
                    rw [getNode_dir_cons]
                    exact hl
              · exact Or.inr (getNodeExcl_cons_lift hr hne)
          | none =>
            rw [hfind] at hok
            obtain ⟨a, ha, hok2⟩ := exceptBindOk hok
            obtain ⟨b, hb, hok3⟩ := exceptBindOk hok2
            simp only [Except.ok.injEq, Prod.mk.injEq] at hok3
            rw [← hok3.1] at h
            rcases ih hb hndr p s m h with hl | hr
            · cases p with
              | nil => simp [getNode] at hl
              | cons q p' =>
                rw [getNode_dir_cons] at hl
                by_cases hq : n1 = q
                · subst hq
                  rw [findEntry_setEntry_self] at hl
                  have hl2 : getNode (.dir a.1) p' = some (.file s m) := hl
                  have ha2 : copyPassF fuel cs1 (deletePass (cs1.map Prod.fst) [] []).1
                      excl now = .ok a := ha
                  rcases ih ha2 hndc p' s m hl2 with hl3 | hr3
                  · cases p' with
                    | nil => simp [getNode] at hl3
                    | cons q2 p'' =>
                      have hl4 := deletePass_paths hl3
                      rw [getNode_dir_cons] at hl4
                      simp [findEntry] at hl4
                  · refine Or.inr ?_
                    rw [getNodeExcl_dir_cons]
                    have hfc : findEntry ((n1, FSNode.dir cs1) :: rest) n1 =
                        some (.dir cs1) := by
                      simp [findEntry]
                    rw [hfc]
                    have hnx : n1 ∉ excl := by simpa using hex
                    simpa [hnx] using hr3
                · rw [findEntry_setEntry_ne _ _ hq] at hl
                  refine Or.inl ?_
                  rw [getNode_dir_cons]
                  exact hl
            · exact Or.inr (getNodeExcl_cons_lift hr hne)

/-- C9 : no file under an excluded source directory name is ever copied into
the destination: every file present in the destination after smartSync
either was already present with the same stats in the destination before the
run, or sits at a source path that never descends into a directory whose
name is in the exclusion set — excluded directories are skipped entirely at
every recursion level. -/
theorem smartSync_exclusion {fuel : Nat} {src dst : List Entry} {excl pres : List String}
    {now : Nat} {t' : FSNode} {c d : Nat}
    (hok : smartSync fuel (some (.dir src)) (some (.dir dst)) excl pres now = .ok (t', c, d))
    (hnd : nodupEntriesF fuel src = true) :
    ∀ p s m, getNode t' p = some (.file s m) →
      getNode (.dir dst) p = some (.file s m) ∨
      fileSizeOf (getNodeExcl excl (.dir src) p) = some s := by
  obtain ⟨dst2, c2, d2, hcp, ht, hc, hd⟩ := smartSync_dir_inv hok
  subst ht
  intro p s m h
  rcases copyPassF_paths hcp hnd p s m h with hl | hr
  · cases p with
    | nil => simp [getNode] at hl
    | cons q p' => exact Or.inl (deletePass_paths hl)
  · exact Or.inr hr

/-- C9 witness: with `ex` excluded, the only file landing in the destination
is the non-excluded source file `keep`. -/
theorem smartSync_exclusion_witness :
    getNode (FSNode.dir []) ["keep"] = some (FSNode.file 1 2000) ∨
    fileSizeOf (getNodeExcl ["ex"]
      (FSNode.dir [("keep", FSNode.file 1 1000),
        ("ex", FSNode.dir [("secret", FSNode.file 9 1000)])])
      ["keep"]) = some 1 :=
  @smartSync_exclusion 5
    [("keep", FSNode.file 1 1000), ("ex", FSNode.dir [("secret", FSNode.file 9 1000)])]
    [] ["ex"] [] 2000 (FSNode.dir [("keep", FSNode.file 1 2000)]) 1 0
    rfl (by decide) ["keep"] 1 2000 rfl

theorem setEntry_mem {l : List Entry} {n : String} {v : FSNode} {e : Entry}
    (h : e ∈ setEntry l n v) : e ∈ l ∨ e.1 = n := by
  induction l with
  | nil =>
    simp [setEntry] at h
    subst h
    exact Or.inr rfl
  | cons a rest ih =>
    obtain ⟨m, x⟩ := a
    by_cases hm : m = n
    · subst hm
      simp only [setEntry, if_pos rfl] at h
      rcases List.mem_cons.mp h with h1 | h1
      · subst h1
        exact Or.inr rfl
      · exact Or.inl (List.mem_cons_of_mem _ h1)
    · simp only [setEntry, if_neg hm] at h
      rcases List.mem_cons.mp h with h1 | h1
      · subst h1
        exact Or.inl (List.mem_cons_self _ _)
      · rcases ih h1 with h2 | h2
        · exact Or.inl (List.mem_cons_of_mem _ h2)
        · exact Or.inr h2

theorem tryCopy_mem {dst : List Entry} {n : String} {s now : Nat} {e : Entry}
    (h : e ∈ (tryCopy dst n s now).1) : e ∈ dst ∨ e.1 = n := by
  unfold tryCopy at h
  cases hf : findEntry dst n with
  | none =>
    rw [hf] at h
    exact setEntry_mem h
  | some node =>
    cases node with
    | file a b =>
      rw [hf] at h
      exact setEntry_mem h
    | dir ds =>
      rw [hf] at h
      exact Or.inl h

theorem setEntry_of_findEntry {l : List Entry} {n : String} {v : FSNode}
    (h : findEntry l n = some v) : setEntry l n v = l := by
  induction l with
  | nil => simp [findEntry] at h
  | cons e rest ih =>
    obtain ⟨m, x⟩ := e
    by_cases hm : m = n
    · subst hm
      have hx : x = v := by simpa [findEntry] using h
      simp [setEntry, hx]
    · simp only [findEntry, if_neg hm] at h
      simp [setEntry, hm, ih h]

theorem deletePass_id {srcNames pres : List String} {dst : List Entry}
    (h : ∀ e ∈ dst, (srcNames.contains e.1 || pres.contains e.1) = true) :
    deletePass srcNames pres dst = (dst, 0) := by
  rw [deletePass_eq_filter]
  have h1 : dst.filter (fun e => srcNames.contains e.1 || pres.contains e.1) = dst :=
    List.filter_eq_self.mpr h
  have h2 : dst.filter (fun e => !(srcNames.contains e.1 || pres.contains e.1)) = [] := by
    rw [List.filter_eq_nil_iff]
    intro a ha
    rw [h a ha]
    simp
  rw [h1, h2]
  rfl

theorem mtimesLEF_cons_file {fuel now : Nat} {n1 : String} {s1 m1 : Nat} {rest : List Entry}
    (h : mtimesLEF (fuel + 1) now ((n1, FSNode.file s1 m1) :: rest) = true) :
    m1 ≤ now ∧ mtimesLEF fuel now rest = true := by
  simpa [mtimesLEF, Bool.and_eq_true] using h

theorem mtimesLEF_cons_dir {fuel now : Nat} {n1 : String} {cs1 rest : List Entry}
    (h : mtimesLEF (fuel + 1) now ((n1, FSNode.dir cs1) :: rest) = true) :
    mtimesLEF fuel now cs1 = true ∧ mtimesLEF fuel now rest = true := by
  simpa [mtimesLEF, Bool.and_eq_true] using h

theorem copyPassF_mem_names {fuel : Nat} {src dst dst' : List Entry} {excl : List String}
    {now c d : Nat}
    (hok : copyPassF fuel src dst excl now = .ok (dst', c, d)) :
    ∀ e ∈ dst', e.1 ∈ dst.map Prod.fst ∨ e.1 ∈ src.map Prod.fst := by
  induction fuel generalizing src dst dst' c d with
  | zero => simp [copyPassF] at hok
  | succ fuel ih =>
    cases src with
    | nil =>
      simp only [copyPassF, Except.ok.injEq, Prod.mk.injEq] at hok
      intro e he
      rw [← hok.1] at he
      exact Or.inl (List.mem_map.mpr ⟨e, he, rfl⟩)
    | cons hd rest =>
      obtain ⟨n1, node1⟩ := hd
      intro e he
      have liftr : e.1 ∈ dst.map Prod.fst ∨ e.1 ∈ rest.map Prod.fst →
          e.1 ∈ dst.map Prod.fst ∨ e.1 ∈ ((n1, node1) :: rest).map Prod.fst := by
        intro h
        rcases h with h | h
        · exact Or.inl h
        · exact Or.inr (by simp [h])
      cases node1 with
      | file s1 m1 =>
        simp only [copyPassF] at hok
        by_cases hig1 : ignorableFile n1 = true
        · rw [if_pos hig1] at hok
          exact liftr (ih hok e he)
        · rw [if_neg hig1] at hok
          by_cases hsc : shouldCopy s1 m1 (findEntry dst n1) = true
          · rw [if_pos hsc] at hok
            obtain ⟨a, ha, hf⟩ := exceptBindOk hok
            simp only [Except.ok.injEq, Prod.mk.injEq] at hf
            rw [← hf.1] at he
            rcases ih ha e he with h1 | h1
            · rcases List.mem_map.mp h1 with ⟨e2, he2, hee⟩
              rcases tryCopy_mem he2 with h2 | h2
              · exact liftr (Or.inl (List.mem_map.mpr ⟨e2, h2, hee⟩))
              · rw [← hee, h2]
                exact Or.inr (by simp)
            · exact liftr (Or.inr h1)
          · rw [if_neg hsc] at hok
            exact liftr (ih hok e he)
      | dir cs1 =>
        simp only [copyPassF] at hok
        by_cases hex : excl.contains n1 = true
        · rw [if_pos hex] at hok
          exact liftr (ih hok e he)
        · rw [if_neg hex] at hok
          cases hfind : findEntry dst n1 with
          | none =>
            rw [hfind] at hok
            obtain ⟨a, ha, hok2⟩ := exceptBindOk hok
            obtain ⟨b, hb, hok3⟩ := exceptBindOk hok2
            simp only [Except.ok.injEq, Prod.mk.injEq] at hok3
            rw [← hok3.1] at he
            rcases ih hb e he with h1 | h1
            · rcases List.mem_map.mp h1 with ⟨e2, he2, hee⟩
              rcases setEntry_mem he2 with h2 | h2
              · exact liftr (Or.inl (List.mem_map.mpr ⟨e2, h2, hee⟩))
              · rw [← hee, h2]
                exact Or.inr (by simp)
            · exact liftr (Or.inr h1)
          | some dnode =>
            cases dnode with
            | file fs fm =>
              rw [hfind] at hok
              simp at hok
            | dir dcs =>
              rw [hfind] at hok
              obtain ⟨a, ha, hok2⟩ := exceptBindOk hok
              obtain ⟨b, hb, hok3⟩ := exceptBindOk hok2
              simp only [Except.ok.injEq, Prod.mk.injEq] at hok3
              rw [← hok3.1] at he
              rcases ih hb e he with h1 | h1
              · rcases List.mem_map.mp h1 with ⟨e2, he2, hee⟩
                rcases setEntry_mem he2 with h2 | h2
                · exact liftr (Or.inl (List.mem_map.mpr ⟨e2, h2, hee⟩))
                · rw [← hee, h2]
                  exact Or.inr (by simp)
              · exact liftr (Or.inr h1)

theorem copyPassF_idempotent {fuel : Nat} {src dst dst' : List Entry} {excl : List String}
    {now now2 c d : Nat}
    (hok : copyPassF fuel src dst excl now = .ok (dst', c, d))
    (hnd : nodupEntriesF fuel src = true)
    (hmt : mtimesLEF fuel now src = true) :
    copyPassF fuel src dst' excl now2 = .ok (dst', 0, 0) := by
  induction fuel generalizing src dst dst' c d with
  | zero => simp [copyPassF] at hok
  | succ fuel ih =>
    cases src with
    | nil => simp [copyPassF]
    | cons hd rest =>
      obtain ⟨n1, node1⟩ := hd
      cases node1 with
      | file s1 m1 =>
        obtain ⟨hne, hndr⟩ := nodupEntriesF_cons_file hnd
        obtain ⟨hm1, hmtr⟩ := mtimesLEF_cons_file hmt
        simp only [copyPassF] at hok ⊢
        by_cases hig1 : ignorableFile n1 = true
        · rw [if_pos hig1] at hok ⊢
          exact ih hok hndr hmtr
        · rw [if_neg hig1] at hok ⊢
          by_cases hsc : shouldCopy s1 m1 (findEntry dst n1) = true
          · rw [if_pos hsc] at hok
            obtain ⟨a, ha, hf⟩ := exceptBindOk hok
            simp only [Except.ok.injEq, Prod.mk.injEq] at hf
            cases hfind : findEntry dst n1 with
            | some dnode =>
              cases dnode with
              | dir dd =>
                have ht1 : (tryCopy dst n1 s1 now).1 = dst := by
                  simp [tryCopy, hfind]
                rw [ht1] at ha
                have hfind2 : findEntry dst' n1 = some (.dir dd) := by
                  rw [← hf.1, copyPassF_findEntry_preserved ha hne, hfind]
                have hrec2 := ih ha hndr hmtr
                rw [hf.1] at hrec2
                rw [hfind2]
                have hsc2 : shouldCopy s1 m1 (some (FSNode.dir dd)) = true := rfl
                rw [if_pos hsc2]
                have htc2 : tryCopy dst' n1 s1 now2 = (dst', 0) := by
                  simp [tryCopy, hfind2]
                simp [htc2, hrec2, Bind.bind, Except.bind]
              | file ds0 dm0 =>
                have ht1 : (tryCopy dst n1 s1 now).1 = setEntry dst n1 (.file s1 now) := by
                  simp [tryCopy, hfind]
                rw [ht1] at ha
                have hfind2 : findEntry dst' n1 = some (.file s1 now) := by
                  rw [← hf.1, copyPassF_findEntry_preserved ha hne, findEntry_setEntry_self]
                have hrec2 := ih ha hndr hmtr
                rw [hf.1] at hrec2
                rw [hfind2]
                have hdiv : m1 / 1000 ≤ now / 1000 := Nat.div_le_div_right hm1
                have hsc2 : shouldCopy s1 m1 (some (FSNode.file s1 now)) = false := by
                  simp [shouldCopy]
                  omega
                rw [if_neg (by rw [hsc2]; exact Bool.false_ne_true)]
                exact hrec2
            | none =>
              have ht1 : (tryCopy dst n1 s1 now).1 = setEntry dst n1 (.file s1 now) := by
                simp [tryCopy, hfind]
              rw [ht1] at ha
              have hfind2 : findEntry dst' n1 = some (.file s1 now) := by
                rw [← hf.1, copyPassF_findEntry_preserved ha hne, findEntry_setEntry_self]
              have hrec2 := ih ha hndr hmtr
              rw [hf.1] at hrec2
              rw [hfind2]
              have hdiv : m1 / 1000 ≤ now / 1000 := Nat.div_le_div_right hm1
              have hsc2 : shouldCopy s1 m1 (some (FSNode.file s1 now)) = false := by
                simp [shouldCopy]
                omega
              rw [if_neg (by rw [hsc2]; exact Bool.false_ne_true)]
              exact hrec2
          · rw [if_neg hsc] at hok
            have hfind2 : findEntry dst' n1 = findEntry dst n1 :=
              copyPassF_findEntry_preserved hok hne
            rw [hfind2]
            rw [if_neg hsc]
            exact ih hok hndr hmtr
      | dir cs1 =>
        obtain ⟨hne, hndc, hndr⟩ := nodupEntriesF_cons_dir hnd
        obtain ⟨hmtc, hmtr⟩ := mtimesLEF_cons_dir hmt
        simp only [copyPassF] at hok ⊢
        by_cases hex : excl.contains n1 = true
        · rw [if_pos hex] at hok ⊢
          exact ih hok hndr hmtr
        · rw [if_neg hex] at hok ⊢
          cases hfind : findEntry dst n1 with
          | some dnode =>
            cases dnode with
            | file fs fm =>
              rw [hfind] at hok
              simp at hok
            | dir dcs =>
              rw [hfind] at hok
              obtain ⟨a, ha, hok2⟩ := exceptBindOk hok
              obtain ⟨b, hb, hok3⟩ := exceptBindOk hok2
              simp only [Except.ok.injEq, Prod.mk.injEq] at hok3
              have hb1 : b.1 = dst' := hok3.1
              have hfind2 : findEntry dst' n1 = some (.dir a.1) := by
                rw [← hb1, copyPassF_findEntry_preserved hb hne, findEntry_setEntry_self]
              have hkeep : ∀ e ∈ a.1,
                  ((cs1.map Prod.fst).contains e.1 ||
                    ([] : List String).contains e.1) = true := by
                intro e he
                rcases copyPassF_mem_names ha e he with h1 | h1
                · rcases List.mem_map.mp h1 with ⟨e2, he2, hee⟩
                  rw [deletePass_eq_filter] at he2
                  have := (List.mem_filter.mp he2).2
                  rw [← hee]
                  simpa using this
                · rw [contains_of_mem h1]
                  rfl
              have hdel2 : deletePass (cs1.map Prod.fst) [] a.1 = (a.1, 0) :=
                deletePass_id hkeep
              have hinner := ih ha hndc hmtc
              have hrest := ih hb hndr hmtr
              rw [hb1] at hrest
              have hset : setEntry dst' n1 (FSNode.dir a.1) = dst' :=
                setEntry_of_findEntry hfind2
              rw [hfind2]
              simp [hdel2, hinner, hset, hrest, Bind.bind, Except.bind]
          | none =>
            rw [hfind] at hok
            obtain ⟨a, ha, hok2⟩ := exceptBindOk hok
            obtain ⟨b, hb, hok3⟩ := exceptBindOk hok2
            simp only [Except.ok.injEq, Prod.mk.injEq] at hok3
            have ha2 : copyPassF fuel cs1 (deletePass (cs1.map Prod.fst) [] []).1
                excl now = .ok a := ha
            have hb1 : b.1 = dst' := hok3.1
            have hfind2 : findEntry dst' n1 = some (.dir a.1) := by
              rw [← hb1, copyPassF_findEntry_preserved hb hne, findEntry_setEntry_self]
            have hkeep : ∀ e ∈ a.1,
                ((cs1.map Prod.fst).contains e.1 ||
                  ([] : List String).contains e.1) = true := by
              intro e he
              rcases copyPassF_mem_names ha2 e he with h1 | h1
              · rcases List.mem_map.mp h1 with ⟨e2, he2, hee⟩
                rw [deletePass_eq_filter] at he2
                have := (List.mem_filter.mp he2).2
                rw [← hee]
                simpa using this
              · rw [contains_of_mem h1]
                rfl
            have hdel2 : deletePass (cs1.map Prod.fst) [] a.1 = (a.1, 0) :=
              deletePass_id hkeep
            have hinner := ih ha2 hndc hmtc
            have hrest := ih hb hndr hmtr
            rw [hb1] at hrest
            have hset : setEntry dst' n1 (FSNode.dir a.1) = dst' :=
              setEntry_of_findEntry hfind2
            rw [hfind2]
            simp [hdel2, hinner, hset, hrest, Bind.bind, Except.bind]

theorem smartSync_idem_dirs {fuel : Nat} {cs ds : List Entry} {excl pres : List String}
    {now now2 : Nat} {t1 : FSNode} {c1 d1 : Nat}
    (hok : smartSync fuel (some (.dir cs)) (some (.dir ds)) excl pres now = .ok (t1, c1, d1))
    (hnd : nodupEntriesF fuel cs = true)
    (hmt : mtimesLEF fuel now cs = true) :
    smartSync fuel (some (.dir cs)) (some t1) excl pres now2 = .ok (t1, 0, 0) := by
  obtain ⟨dst2, c2, d2, hcp, ht, hc, hd⟩ := smartSync_dir_inv hok
  subst ht
  have hkeep : ∀ e ∈ dst2, ((cs.map Prod.fst).contains e.1 || pres.contains e.1) = true := by
    intro e he
    rcases copyPassF_mem_names hcp e he with h1 | h1
    · rcases List.mem_map.mp h1 with ⟨e2, he2, hee⟩
      rw [deletePass_eq_filter] at he2
      have hf2 := (List.mem_filter.mp he2).2
      rw [← hee]
      simpa using hf2
    · rw [contains_of_mem h1]
      rfl
  have hdel2 : deletePass (cs.map Prod.fst) pres dst2 = (dst2, 0) := deletePass_id hkeep
  have hidem := @copyPassF_idempotent fuel cs _ dst2 excl now now2 c2 d2 hcp hnd hmt
  have hsd : syncDir fuel cs dst2 excl pres now2 = .ok (dst2, 0, 0) := by
    show (copyPassF fuel cs (deletePass (cs.map Prod.fst) pres dst2).1 excl now2 >>=
      fun x => Except.ok (x.1, x.2.1, (deletePass (cs.map Prod.fst) pres dst2).2 + x.2.2)) =
      .ok (dst2, 0, 0)
    rw [hdel2]
    simp [hidem, Bind.bind, Except.bind]
  show (syncDir fuel cs dst2 excl pres now2 >>= fun r =>
    Except.ok (FSNode.dir r.1, r.2.1, r.2.2)) = .ok (.dir dst2, 0, 0)
  rw [hsd]
  rfl

/-- C3 : running smartSync twice in succession on the same source and
destination with no source modifications between the runs performs zero file
copies and zero deletions during the second run and leaves the destination
tree unchanged — under the environment assumptions that the source listings
carry no duplicate names and that no source file mtime lies in the future of
the first run's clock. -/
theorem smartSync_idempotent {fuel : Nat} {srcT dstT : Option FSNode} {excl pres : List String}
    {now now2 : Nat} {t1 : FSNode} {c1 d1 : Nat}
    (hok : smartSync fuel srcT dstT excl pres now = .ok (t1, c1, d1))
    (hnd : ∀ cs, srcT = some (.dir cs) → nodupEntriesF fuel cs = true)
    (hmt : ∀ cs, srcT = some (.dir cs) → mtimesLEF fuel now cs = true) :
    smartSync fuel srcT (some t1) excl pres now2 = .ok (t1, 0, 0) := by
  cases srcT with
  | none =>
    cases dstT with
    | none =>
      cases fuel with
      | zero => simp [smartSync, syncDir, copyPassF, Bind.bind, Except.bind] at hok
      | succ f =>
        have h := hok
        rw [show smartSync (f + 1) none none excl pres now = .ok (.dir [], 0, 0) from rfl] at h
        simp only [Except.ok.injEq, Prod.mk.injEq] at h
        rw [← h.1]
        rfl
    | some dnode =>
      cases dnode with
      | file a b => simp [smartSync, Bind.bind, Except.bind] at hok
      | dir ds =>
        cases fuel with
        | zero => simp [smartSync, syncDir, copyPassF, Bind.bind, Except.bind] at hok
        | succ f =>
          have hok2 : smartSync (f + 1) (some (.dir [])) (some (.dir ds)) excl pres now =
              .ok (t1, c1, d1) := hok
          exact smartSync_idem_dirs hok2 rfl rfl
  | some snode =>
    cases snode with
    | file a b =>
      cases dstT with
      | none => simp [smartSync, Bind.bind, Except.bind] at hok
      | some dnode =>
        cases dnode with
        | file a2 b2 => simp [smartSync, Bind.bind, Except.bind] at hok
        | dir ds => simp [smartSync, Bind.bind, Except.bind] at hok
    | dir cs =>
      cases dstT with
      | none =>
        have hok2 : smartSync fuel (some (.dir cs)) (some (.dir [])) excl pres now =
            .ok (t1, c1, d1) := hok
        exact smartSync_idem_dirs hok2 (hnd cs rfl) (hmt cs rfl)
      | some dnode =>
        cases dnode with
        | file a b => simp [smartSync, Bind.bind, Except.bind] at hok
        | dir ds => exact smartSync_idem_dirs hok (hnd cs rfl) (hmt cs rfl)

/-- C3 witness: a second run over the destination produced by a first run
performs zero copies and zero deletions. -/
theorem smartSync_idempotent_witness :
    smartSync 3 (some (.dir [("a", FSNode.file 2 1500)]))
      (some (FSNode.dir [("a", FSNode.file 2 5000)])) [] [] 7777 =
      .ok (FSNode.dir [("a", FSNode.file 2 5000)], 0, 0) :=
  @smartSync_idempotent 3 (some (.dir [("a", FSNode.file 2 1500)]))
    (some (.dir [])) [] [] 5000 7777 (FSNode.dir [("a", FSNode.file 2 5000)]) 1 0
    rfl
    (by intro cs h; simp only [Option.some.injEq, FSNode.dir.injEq] at h; subst h; rfl)
    (by intro cs h; simp only [Option.some.injEq, FSNode.dir.injEq] at h; subst h; rfl)

theorem findEntry_eq_none {l : List Entry} {n : String} (h : n ∉ l.map Prod.fst) :
    findEntry l n = none := by
  induction l with
  | nil => rfl
  | cons e rest ih =>
    obtain ⟨m, y⟩ := e
    simp only [List.map_cons, List.mem_cons] at h
    push_neg at h
    simp only [findEntry, if_neg (Ne.symm h.1)]
    exact ih h.2

theorem findEntry_filter_of_removed {p : Entry → Bool} {ds : List Entry} {n : String}
    {x : FSNode} (hnd : (ds.map Prod.fst).Nodup) (hf : findEntry ds n = some x)
    (hp : p (n, x) = false) :
    findEntry (ds.filter p) n = none := by
  induction ds with
  | nil => simp [findEntry] at hf
  | cons e rest ih =>
    obtain ⟨m, y⟩ := e
    simp only [List.map_cons] at hnd
    have hnd1 := (List.nodup_cons.mp hnd).1
    have hnd2 := (List.nodup_cons.mp hnd).2
    by_cases hm : m = n
    · subst hm
      have hy : y = x := by simpa [findEntry] using hf
      subst hy
      rw [List.filter_cons, hp]
      simp only [Bool.false_eq_true, if_false]
      apply findEntry_eq_none
      intro hmem
      rcases List.mem_map.mp hmem with ⟨e2, he2, hee⟩
      exact hnd1 (List.mem_map.mpr ⟨e2, (List.mem_filter.mp he2).1, hee⟩)
    · simp only [findEntry, if_neg hm] at hf
      rw [List.filter_cons]
      by_cases hpe : p (m, y) = true
      · simp only [hpe, if_pos]
        simp only [findEntry, if_neg hm]
        exact ih hnd2 hf
      · simp only [Bool.not_eq_true] at hpe
        rw [hpe]
        simp only [Bool.false_eq_true, if_false]
        exact ih hnd2 hf

theorem smartSync_bind_dir {fuel : Nat} {cs0 ds0 : List Entry} {excl pres : List String}
    {now : Nat} {t : FSNode} {c d : Nat}
    (h : (syncDir fuel cs0 ds0 excl pres now >>= fun r =>
      Except.ok (FSNode.dir r.1, r.2.1, r.2.2)) = .ok (t, c, d)) :
    ∃ cs2, t = FSNode.dir cs2 := by
  obtain ⟨r, hr, hf⟩ := exceptBindOk h
  simp only [Except.ok.injEq, Prod.mk.injEq] at hf
  exact ⟨r.1, hf.1.symm⟩

theorem smartSync_ok_dir {fuel : Nat} {srcT dstT : Option FSNode} {excl pres : List String}
    {now : Nat} {t : FSNode} {c d : Nat}
    (hok : smartSync fuel srcT dstT excl pres now = .ok (t, c, d)) :
    ∃ cs2, t = FSNode.dir cs2 := by
  cases dstT with
  | none =>
    cases srcT with
    | none => exact smartSync_bind_dir hok
    | some s =>
      cases s with
      | file a b => simp [smartSync, Bind.bind, Except.bind] at hok
      | dir cs => exact smartSync_bind_dir hok
  | some dnode =>
    cases dnode with
    | file a b => simp [smartSync, Bind.bind, Except.bind] at hok
    | dir ds =>
      cases srcT with
      | none => exact smartSync_bind_dir hok
      | some s =>
        cases s with
        | file a b => simp [smartSync, Bind.bind, Except.bind] at hok
        | dir cs => exact smartSync_bind_dir hok

theorem syncUsed_findEntry {fuel : Nat} {root : FSNode} {us : List String}
    {acc acc2 : List Entry} {now : Nat}
    (hok : syncUsed fuel root us acc now = .ok acc2) :
    ∀ n, (n ∉ us ∨ rootChild root n = none) → findEntry acc2 n = findEntry acc n := by
  induction us generalizing acc with
  | nil =>
    simp only [syncUsed, Except.ok.injEq] at hok
    subst hok
    intro n _
    rfl
  | cons libName rest ih =>
    intro n hcond
    simp only [syncUsed] at hok
    cases hroot : rootChild root libName with
    | none =>
      rw [hroot] at hok
      have hcond2 : n ∉ rest ∨ rootChild root n = none := by
        rcases hcond with h | h
        · exact Or.inl (fun hm => h (List.mem_cons_of_mem _ hm))
        · exact Or.inr h
      exact ih hok n hcond2
    | some t =>
      rw [hroot] at hok
      obtain ⟨r, hr, hok2⟩ := exceptBindOk hok
      have hne : n ≠ libName := by
        intro hEq
        subst hEq
        rcases hcond with h | h
        · exact h (List.mem_cons_self _ _)
        · rw [h] at hroot
          cases hroot
      have hcond2 : n ∉ rest ∨ rootChild root n = none := by
        rcases hcond with h | h
        · exact Or.inl (fun hm => h (List.mem_cons_of_mem _ hm))
        · exact Or.inr h
      rw [ih hok2 n hcond2, findEntry_setEntry_ne _ _ (Ne.symm hne)]

theorem syncUsed_dir {fuel : Nat} {root : FSNode} {us : List String}
    {acc acc2 : List Entry} {now : Nat}
    (hok : syncUsed fuel root us acc now = .ok acc2) :
    ∀ n t, n ∈ us → rootChild root n = some t →
      ∃ cs2, findEntry acc2 n = some (.dir cs2) := by
  induction us generalizing acc with
  | nil =>
    intro n t hn
    simp at hn
  | cons libName rest ih =>
    intro n t hn hroot
    simp only [syncUsed] at hok
    by_cases hmemr : n ∈ rest
    · cases hroot2 : rootChild root libName with
      | none =>
        rw [hroot2] at hok
        exact ih hok n t hmemr hroot
      | some t0 =>
        rw [hroot2] at hok
        obtain ⟨r, hr, hok2⟩ := exceptBindOk hok
        exact ih hok2 n t hmemr hroot
    · have hn1 : n = libName := by
        rcases List.mem_cons.mp hn with h | h
        · exact h
        · exact absurd h hmemr
      subst hn1
      rw [hroot] at hok
      obtain ⟨r, hr, hok2⟩ := exceptBindOk hok
      obtain ⟨rt, hc, hd⟩ := r
      obtain ⟨cs2, hcs⟩ := smartSync_ok_dir hr
      subst hcs
      have hpres := syncUsed_findEntry hok2 n (Or.inl hmemr)
      rw [hpres, findEntry_setEntry_self]
      exact ⟨cs2, rfl⟩

/-- C4 counterexample: with used-library set {A} and a shared libraries root
that exists but holds no library A, the run creates the destination
libraries directory empty — it does not contain a subdirectory A, so the
destination does not contain exactly the library subdirectories named in the
used set. -/
theorem syncLibrariesIfNeeded_missing_root_lib :
    syncLibrariesIfNeeded 2 (some (.dir [])) ["A"] none 0 = .ok (some (.dir [])) ∧
    hasDirChild (some (.dir [])) "A" = false :=
  ⟨rfl, rfl⟩

/-- C4 amended : after syncLibrariesIfNeeded with used-library set U (the
shared root existing): if U is empty the destination libraries directory no
longer exists; otherwise every name in U that exists under the shared
libraries root is materialized as a subdirectory of the destination (synced
from the root with no exclusions), and every previously materialized library
subdirectory whose name is not in U has been removed — but a name in U with
no entry under the shared root is silently skipped rather than materialized,
so the destination holds exactly the used names present under the root plus
the previously materialized ones in U, not necessarily all of U. -/
theorem syncLibrariesIfNeeded_spec {fuel : Nat} {root : FSNode} {used : List String}
    {destLibs : Option FSNode} {now : Nat} {res : Option FSNode}
    (hok : syncLibrariesIfNeeded fuel (some root) used destLibs now = .ok res) :
    (used = [] → res = none) ∧
    (used ≠ [] → ∀ n t, n ∈ used → rootChild root n = some t →
      hasDirChild res n = true) ∧
    (∀ n ds x, used ≠ [] → destLibs = some (.dir ds) → (ds.map Prod.fst).Nodup →
      findEntry ds n = some x → isDirNode x = true → n ∉ used →
      childOf res n = none) := by
  cases used with
  | nil =>
    refine ⟨fun _ => ?_, fun h => absurd rfl h, fun n ds x h => absurd rfl h⟩
    cases destLibs with
    | none =>
      have h : (Except.ok (none : Option FSNode) : Except Unit (Option FSNode)) =
          .ok res := hok
      simpa using h.symm
    | some dnode =>
      cases dnode with
      | file a b => simp [syncLibrariesIfNeeded, Bind.bind, Except.bind] at hok
      | dir ds =>
        have h : (Except.ok (none : Option FSNode) : Except Unit (Option FSNode)) =
            .ok res := hok
        simpa using h.symm
  | cons u us =>
    cases destLibs with
    | some dnode =>
      cases dnode with
      | file a b => simp [syncLibrariesIfNeeded, Bind.bind, Except.bind] at hok
      | dir ds =>
        have hok2 : (syncUsed fuel root (u :: us)
            (ds.filter (fun e => !isDirNode e.2 || (u :: us).contains e.1)) now >>=
            fun final => Except.ok (some (FSNode.dir final))) = .ok res := hok
        obtain ⟨final, hsf, hfin⟩ := exceptBindOk hok2
        simp only [Except.ok.injEq] at hfin
        refine ⟨fun h => (by cases h), ?_, ?_⟩
        · intro _ n t hn hroot
          obtain ⟨cs2, hcs⟩ := syncUsed_dir hsf n t hn hroot
          rw [← hfin]
          simp [hasDirChild, childOf, hcs]
        · intro n ds0 x _ hEq hnd hf hdirx hnu
          have hds : ds0 = ds := by
            have h2 := hEq
            simp only [Option.some.injEq, FSNode.dir.injEq] at h2
            exact h2.symm
          subst hds
          rw [← hfin]
          show findEntry final n = none
          rw [syncUsed_findEntry hsf n (Or.inl hnu)]
          apply findEntry_filter_of_removed hnd hf
          rw [hdirx, contains_eq_false_of_not_mem hnu]
          rfl
    | none =>
      have hok2 : (syncUsed fuel root (u :: us) [] now >>=
          fun final => Except.ok (some (FSNode.dir final))) = .ok res := hok
      obtain ⟨final, hsf, hfin⟩ := exceptBindOk hok2
      simp only [Except.ok.injEq] at hfin
      refine ⟨fun h => (by cases h), ?_, fun n ds x _ hEq => (by cases hEq)⟩
      intro _ n t hn hroot
      obtain ⟨cs2, hcs⟩ := syncUsed_dir hsf n t hn hroot
      rw [← hfin]
      simp [hasDirChild, childOf, hcs]

/-- C4 witness: library A (present under the root) is materialized, the
previously materialized library B (no longer used) is removed, and the plain
file note in the destination libraries directory is untouched by the
cleanup. -/
theorem syncLibrariesIfNeeded_spec_witness :
    (["A"] ≠ ([] : List String)) ∧
    hasDirChild (some (FSNode.dir [("note", FSNode.file 5 5),
      ("A", FSNode.dir [("f", FSNode.file 1 50)])])) "A" = true ∧
    childOf (some (FSNode.dir [("note", FSNode.file 5 5),
      ("A", FSNode.dir [("f", FSNode.file 1 50)])])) "B" = none := by
  have h := @syncLibrariesIfNeeded_spec 4
    (FSNode.dir [("A", FSNode.dir [("f", FSNode.file 1 10)])]) ["A"]
    (some (FSNode.dir [("B", FSNode.dir []), ("note", FSNode.file 5 5)])) 50
    (some (FSNode.dir [("note", FSNode.file 5 5),
      ("A", FSNode.dir [("f", FSNode.file 1 50)])]))
    rfl
  refine ⟨by decide, ?_, ?_⟩
  · exact h.2.1 (by decide) "A" (FSNode.dir [("f", FSNode.file 1 10)]) (by decide) rfl
  · exact h.2.2 "B" [("B", FSNode.dir []), ("note", FSNode.file 5 5)] (FSNode.dir [])
      (by decide) rfl (by decide) rfl rfl (by decide)

theorem firstSome_some {α β : Type} {f : α → Option β} {l : List α} {b : β}
    (h : firstSome f l = some b) : ∃ a ∈ l, f a = some b := by
  induction l with
  | nil => simp [firstSome] at h
  | cons a as ih =>
    simp only [firstSome] at h
    cases hf : f a with
    | some b2 =>
      rw [hf] at h
      simp only [Option.some.injEq] at h
      exact ⟨a, List.mem_cons_self _ _, by rw [hf, h]⟩
    | none =>
      rw [hf] at h
      obtain ⟨a2, ha2, hfa2⟩ := ih h
      exact ⟨a2, List.mem_cons_of_mem _ ha2, hfa2⟩

theorem orElse_eq_some {α : Type} {a b : Option α} {x : α} (h : (a <|> b) = some x) :
    a = some x ∨ b = some x := by
  cases a with
  | none =>
    right
    simpa using h
  | some y =>
    left
    simpa using h

theorem quoteEnd_eq_some {cap l : List Char} {c : String} {r : List Char}
    (h : quoteEnd cap l = some (c, r)) : c = String.mk cap := by
  cases l with
  | nil => simp [quoteEnd] at h
  | cons q r4 =>
    simp only [quoteEnd] at h
    by_cases hq : isQuoteChar q = true
    · rw [if_pos hq] at h
      simp only [Option.some.injEq, Prod.mk.injEq] at h
      exact h.1.symm
    · rw [if_neg hq] at h
      cases h

theorem subpathPart_eq_some {cap l : List Char} {c : String} {r : List Char}
    (h : subpathPart cap l = some (c, r)) : c = String.mk cap := by
  cases l with
  | nil => simp [subpathPart] at h
  | cons a r2 =>
    simp only [subpathPart] at h
    by_cases ha : a = '/'
    · rw [if_pos ha] at h
      obtain ⟨r3, _, hq⟩ := firstSome_some h
      exact quoteEnd_eq_some hq
    · rw [if_neg ha] at h
      cases h

theorem greedyStarCap_chars {p : Char → Bool} :
    ∀ (cs : List Char) pr, pr ∈ greedyStarCap p cs → ∀ c ∈ pr.1, p c = true := by
  intro cs
  induction cs with
  | nil =>
    intro pr h c hc
    simp only [greedyStarCap, List.mem_singleton] at h
    subst h
    simp at hc
  | cons a as ih =>
    intro pr h c hc
    simp only [greedyStarCap] at h
    by_cases hp : p a = true
    · rw [if_pos hp] at h
      rcases List.mem_append.mp h with h1 | h1
      · rcases List.mem_map.mp h1 with ⟨pr2, hpr2, heq⟩
        subst heq
        rcases List.mem_cons.mp hc with hc1 | hc1
        · rw [hc1]
          exact hp
        · exact ih pr2 hpr2 c hc1
      · simp only [List.mem_singleton] at h1
        subst h1
        simp at hc
    · rw [if_neg hp] at h
      simp only [List.mem_singleton] at h
      subst h
      simp at hc

theorem greedyPlusCap_chars {p : Char → Bool} {cs : List Char} {pr : List Char × List Char}
    (h : pr ∈ greedyPlusCap p cs) : ∀ c ∈ pr.1, p c = true := by
  cases cs with
  | nil => simp [greedyPlusCap] at h
  | cons a as =>
    simp only [greedyPlusCap] at h
    by_cases hp : p a = true
    · rw [if_pos hp] at h
      rcases List.mem_map.mp h with ⟨pr2, hpr2, heq⟩
      subst heq
      intro c hc
      rcases List.mem_cons.mp hc with hc1 | hc1
      · rw [hc1]
        exact hp
      · exact greedyStarCap_chars as pr2 hpr2 c hc1
    · rw [if_neg hp] at h
      cases h

theorem captureLib_no_slash {cs : List Char} {cap : String} {rest : List Char}
    (h : captureLib cs = some (cap, rest)) : '/' ∉ cap.data := by
  obtain ⟨pr, hpr, hf⟩ := firstSome_some h
  have hcap : cap = String.mk pr.1 := by
    rcases orElse_eq_some hf with h1 | h1
    · exact subpathPart_eq_some h1
    · exact quoteEnd_eq_some h1
  have hchars := greedyPlusCap_chars hpr
  rw [hcap]
  intro hmem
  have := hchars _ hmem
  simp [isCapChar] at this

theorem matchImportFrom_capture {tailFn : List Char → Option (String × List Char)}
    {P : String → Prop}
    (hP : ∀ cs2 cap rest, tailFn cs2 = some (cap, rest) → P cap) :
    ∀ cs cap rest, matchImportFrom tailFn cs = some (cap, rest) → P cap := by
  intro cs cap rest h
  unfold matchImportFrom at h
  rcases Option.bind_eq_some.mp h with ⟨r1, _, h⟩
  obtain ⟨r2, _, h⟩ := firstSome_some h
  obtain ⟨r3, _, h⟩ := firstSome_some h
  obtain ⟨r4, _, h⟩ := firstSome_some h
  rcases Option.bind_eq_some.mp h with ⟨r5, _, h⟩
  obtain ⟨r6, _, h⟩ := firstSome_some h
  cases r6 with
  | nil =>
    have h2 : (none : Option (String × List Char)) = some (cap, rest) := h
    cases h2
  | cons q r7 =>
    have h2 : (if isQuoteChar q = true then tailFn r7 else none) = some (cap, rest) := h
    by_cases hq : isQuoteChar q = true
    · rw [if_pos hq] at h2
      exact hP r7 cap rest h2
    · rw [if_neg hq] at h2
      cases h2

theorem scanPatF_capture {tailFn : List Char → Option (String × List Char)}
    {P : String → Prop}
    (hP : ∀ cs2 cap rest, tailFn cs2 = some (cap, rest) → P cap) :
    ∀ fuel cs cap, cap ∈ scanPatF tailFn fuel cs → P cap := by
  intro fuel
  induction fuel with
  | zero =>
    intro cs cap h
    simp [scanPatF] at h
  | succ fuel ih =>
    intro cs cap h
    cases cs with
    | nil => simp [scanPatF] at h
    | cons c rest =>
      simp only [scanPatF] at h
      cases hm : matchImportFrom tailFn (c :: rest) with
      | some pr =>
        rw [hm] at h
        rcases List.mem_cons.mp h with h1 | h1
        · subst h1
          exact matchImportFrom_capture hP (c :: rest) pr.1 pr.2 (by rw [hm])
        · exact ih pr.2 cap h1
      | none =>
        rw [hm] at h
        exact ih rest cap h

theorem tailRelative_no_slash (cs2 : List Char) (cap : String) (rest : List Char)
    (h : tailRelative cs2 = some (cap, rest)) : '/' ∉ cap.data := by
  unfold tailRelative at h
  cases h1 : dropLit "../libraries/".toList cs2 with
  | some r =>
    rw [h1] at h
    exact captureLib_no_slash h
  | none =>
    rw [h1] at h
    cases h2 : dropLit "./libraries/".toList cs2 with
    | some r =>
      rw [h2] at h
      exact captureLib_no_slash h
    | none =>
      rw [h2] at h
      cases h

theorem tailBare_no_slash (cs2 : List Char) (cap : String) (rest : List Char)
    (h : tailBare cs2 = some (cap, rest)) : '/' ∉ cap.data := by
  unfold tailBare at h
  cases h1 : dropLit "libraries/".toList cs2 with
  | some r =>
    rw [h1] at h
    exact captureLib_no_slash h
  | none =>
    rw [h1] at h
    cases h

theorem greedyStarCap_head {p : Char → Bool} :
    ∀ (l : List Char) (q : Char) (r : List Char), (∀ c ∈ l, p c = true) → p q = false →
      ∃ tl, greedyStarCap p (l ++ q :: r) = (l, q :: r) :: tl := by
  intro l
  induction l with
  | nil =>
    intro q r _ hq
    refine ⟨[], ?_⟩
    simp [greedyStarCap, hq]
  | cons a l2 ih =>
    intro q r hl hq
    have hpa : p a = true := hl a (List.mem_cons_self _ _)
    obtain ⟨tl, htl⟩ := ih q r (fun c hc => hl c (List.mem_cons_of_mem _ hc)) hq
    refine ⟨tl.map (fun pr => (a :: pr.1, pr.2)) ++ [([], a :: (l2 ++ q :: r))], ?_⟩
    have h1 : greedyStarCap p ((a :: l2) ++ q :: r) =
        (greedyStarCap p (l2 ++ q :: r)).map (fun pr => (a :: pr.1, pr.2)) ++
          [([], a :: (l2 ++ q :: r))] := by
      simp only [List.cons_append, greedyStarCap, if_pos hpa]
      rfl
    rw [h1, htl]
    simp

/-- C5 counterexample: an aliased import with a subpath, here the statement
`import f from "@workspace/m/u"`, contributes the whole captured path
`m/u` to the used-library set, not the first path segment `m`. -/
theorem detectLibraryUsage_workspace_subpath :
    detectLibraryUsage [some ("import f from \"@workspace/m/u\"".toList)] [] =
      .ok ["m/u"] ∧ ("m" : String) ∉ ["m/u"] :=
  ⟨rfl, by decide⟩

/-- C5 amended : the relative and bare library patterns capture only the
first path segment after the `libraries/` marker (their captures never
contain a slash), but the aliased `@workspace` pattern captures the entire
text up to the closing quote, slashes included: on an input consisting of a
non-empty run of non-quote characters followed by a quote, the capture is
that whole run. -/
theorem importPatterns_capture_shape :
    (∀ (content : List Char) (cap : String), cap ∈ scanPat tailRelative content →
      '/' ∉ cap.data) ∧
    (∀ (content : List Char) (cap : String), cap ∈ scanPat tailBare content →
      '/' ∉ cap.data) ∧
    (∀ (l : List Char) (q : Char) (r : List Char), l ≠ [] →
      (∀ c ∈ l, isQuoteChar c = false) → isQuoteChar q = true →
      captureAlias (l ++ q :: r) = some (String.mk l, r)) := by
  refine ⟨?_, ?_, ?_⟩
  · intro content cap h
    exact scanPatF_capture tailRelative_no_slash _ content cap h
  · intro content cap h
    exact scanPatF_capture tailBare_no_slash _ content cap h
  · intro l q r hne hl hq
    cases l with
    | nil => exact absurd rfl hne
    | cons a l2 =>
      have hpa : isSubChar a = true := by
        simp [isSubChar, hl a (List.mem_cons_self _ _)]
      have hql : ∀ c ∈ l2, isSubChar c = true := by
        intro c hc
        simp [isSubChar, hl c (List.mem_cons_of_mem _ hc)]
      have hqq : isSubChar q = false := by
        simp [isSubChar, hq]
      obtain ⟨tl, htl⟩ := greedyStarCap_head l2 q r hql hqq
      unfold captureAlias
      simp only [List.cons_append, greedyPlusCap, if_pos hpa, htl]
      simp only [List.map_cons, firstSome]
      simp [quoteEnd, hq]

/-- C5 witness: the bare-pattern capture `m` holds no slash, and the aliased
capture on `m/u` followed by a closing quote is the full `m/u`. -/
theorem importPatterns_capture_shape_witness :
    ('/' ∉ ("m" : String).data) ∧
    captureAlias ("m/u".toList ++ '"' :: []) = some (String.mk "m/u".toList, []) := by
  refine ⟨?_, ?_⟩
  · exact importPatterns_capture_shape.2.1 ("import f from \"libraries/m\"".toList) "m"
      (by rw [show scanPat tailBare ("import f from \"libraries/m\"".toList) = ["m"] from rfl]
          exact List.mem_singleton.mpr rfl)
  · exact importPatterns_capture_shape.2.2 "m/u".toList '"' [] (by decide) (by decide)
      (by decide)

/-- C7 counterexample: an unreadable file aborts the whole library scan with
an error — the matches of the readable file scanned before it are lost and
no result set is produced, instead of the file counting as zero matches and
the scan continuing. -/
theorem detectLibraryUsage_unreadable_aborts :
    detectLibraryUsage [some ("import f from \"libraries/maths\"".toList), none] [] =
      .error () := rfl

/-- C7 amended : `detectLibraryUsage` reads every file with no try/catch
around `readFileSync`, so whenever any file of the scan list is unreadable
the whole scan throws: it returns an error and produces no used-library set
at all, rather than treating the unreadable file as zero matches and
continuing. -/
theorem detectLibraryUsage_error_of_unreadable {files : List (Option (List Char))}
    {acc : List String} (h : none ∈ files) :
    detectLibraryUsage files acc = .error () := by
  induction files generalizing acc with
  | nil => cases h
  | cons f rest ih =>
    cases f with
    | none => rfl
    | some content =>
      rcases List.mem_cons.mp h with h1 | h1
      · cases h1
      · exact ih h1

/-- C7 witness: the amended theorem applied to a two-file scan whose second
file is unreadable. -/
theorem detectLibraryUsage_error_of_unreadable_witness :
    (none ∈ [some ("import f from \"libraries/maths\"".toList), none]) ∧
    detectLibraryUsage [some ("import f from \"libraries/maths\"".toList), none] [] =
      .error () :=
  ⟨List.mem_cons_of_mem _ (List.mem_cons_self _ _),
   detectLibraryUsage_error_of_unreadable (List.mem_cons_of_mem _ (List.mem_cons_self _ _))⟩
